import Mathlib

set_option maxHeartbeats 1600000
set_option maxRecDepth 100000

/-!
Verification of the PIX EMV payload encoder
(`apps/core/services/pix.py`, class `PixService`).

Python strings are modelled as lists of Unicode code points (`PyStr`);
`Decimal` amounts are modelled as rationals.  Every definition below is a
direct translation of the corresponding Python function.  Python's
`str.strip`, `str.split` and the regex character classes `\d`, `\s` are
modelled over their ASCII ranges, and `unicodedata.normalize("NFD", ·)`
is modelled by the Latin-1 decomposition table (the inputs the service
handles); on every code path proved about, the two agree.
-/

/-- A Python string: its list of Unicode code points. -/
abbrev PyStr := List Nat

/-- Code points of a Lean string literal, used to embed Python literals. -/
def pyStr (s : String) : PyStr := s.toList.map Char.toNat

/-- ASCII whitespace, the characters `str.strip()` / `str.split()` remove. -/
def isSp (n : Nat) : Bool := decide (n = 32 ∨ n = 9 ∨ n = 10 ∨ n = 13 ∨ n = 11 ∨ n = 12)

/-- The regex class `\d` (ASCII digits). -/
def isDig (n : Nat) : Bool := decide (48 ≤ n ∧ n ≤ 57)

/-- The regex class `[a-fA-F0-9]`. -/
def isHexC (n : Nat) : Bool :=
  decide ((48 ≤ n ∧ n ≤ 57) ∨ (65 ≤ n ∧ n ≤ 70) ∨ (97 ≤ n ∧ n ≤ 102))

/-- The regex class `[a-zA-Z0-9 ]` kept by `_normalize_text`. -/
def isAlnumSp (n : Nat) : Bool :=
  decide ((48 ≤ n ∧ n ≤ 57) ∨ (65 ≤ n ∧ n ≤ 90) ∨ (97 ≤ n ∧ n ≤ 122) ∨ n = 32)

/-- The regex class `[a-zA-Z0-9]` kept by `_normalize_txid`. -/
def isAlnum (n : Nat) : Bool :=
  decide ((48 ≤ n ∧ n ≤ 57) ∨ (65 ≤ n ∧ n ≤ 90) ∨ (97 ≤ n ∧ n ≤ 122))

/-- `str.lower` on one code point (ASCII range, the range the service hits). -/
def toLowerN (n : Nat) : Nat := if 65 ≤ n ∧ n ≤ 90 then n + 32 else n

/-- `str.upper` on one code point (ASCII range). -/
def toUpperN (n : Nat) : Nat := if 97 ≤ n ∧ n ≤ 122 then n - 32 else n

/-- `str.strip()`: drop whitespace from both ends. -/
def pyStrip (l : PyStr) : PyStr :=
  ((l.dropWhile isSp).reverse.dropWhile isSp).reverse

/-- `str.split()` (no separator), with enough fuel: maximal runs of
non-whitespace.  The fuel only drives structural recursion; it is
irrelevant as soon as it is at least the length of the string. -/
def pySplitAux : Nat → PyStr → List PyStr
  | 0, _ => []
  | f + 1, l =>
    match l.dropWhile isSp with
    | [] => []
    | c :: cs =>
        (c :: cs.takeWhile (fun x => !isSp x)) ::
          pySplitAux f (cs.dropWhile (fun x => !isSp x))

/-- `str.split()` (no separator): maximal runs of non-whitespace. -/
def pySplit (l : PyStr) : List PyStr := pySplitAux l.length l

/-- `" ".join(parts)`. -/
def joinSp : List PyStr → PyStr
  | [] => []
  | [w] => w
  | w :: ws => w ++ 32 :: joinSp ws

/-- No two adjacent spaces (auxiliary well-formedness predicate: strings
of this shape are fixed points of the whitespace-collapsing pass). -/
def okSp : PyStr → Bool
  | [] => true
  | [_] => true
  | a :: b :: t => (!(a == 32 && b == 32)) && okSp (b :: t)

/-- Decimal digits of a natural number with fuel (irrelevant once it is
at least the number itself). -/
def natToDecAux : Nat → Nat → PyStr
  | 0, n => [48 + n]
  | f + 1, n => if n < 10 then [48 + n] else natToDecAux f (n / 10) ++ [48 + n % 10]

/-- Decimal digits of a natural number, as code points (`str(n)`). -/
def natToDec (n : Nat) : PyStr := natToDecAux n n

/-- `str(n).zfill(2)`. -/
def zfill2 (l : PyStr) : PyStr :=
  if l.length < 2 then List.replicate (2 - l.length) 48 ++ l else l

/-- `PixService._format_emv_field`: `TAG + LENGTH (2 digits) + VALUE`. -/
def formatEmvField (tag value : PyStr) : PyStr :=
  tag ++ zfill2 (natToDec value.length) ++ value

/-- Shorthand for the length prefix emitted by `_format_emv_field`. -/
def lenStr (value : PyStr) : PyStr := zfill2 (natToDec value.length)

/-- Uppercase hexadecimal digit for `d < 16` (`"%X"` digit). -/
def hexDig (d : Nat) : Nat := if d < 10 then 48 + d else 55 + d

/-- Uppercase hexadecimal digits with fuel (irrelevant once it is at
least the number itself). -/
def natToHexAux : Nat → Nat → PyStr
  | 0, n => [hexDig n]
  | f + 1, n => if n < 16 then [hexDig n] else natToHexAux f (n / 16) ++ [hexDig (n % 16)]

/-- Uppercase hexadecimal digits of `n` (`format(n, "X")`). -/
def natToHex (n : Nat) : PyStr := natToHexAux n n

/-- `format(n, "04X")`: at least four uppercase hex digits, zero-padded. -/
def toHex4 (n : Nat) : PyStr :=
  if (natToHex n).length < 4
  then List.replicate (4 - (natToHex n).length) 48 ++ natToHex n
  else natToHex n

/-- UTF-8 bytes of a single code point (`str.encode("utf-8")`). -/
def utf8Char (n : Nat) : List Nat :=
  if n < 128 then [n]
  else if n < 2048 then [192 + n / 64, 128 + n % 64]
  else if n < 65536 then [224 + n / 4096, 128 + n / 64 % 64, 128 + n % 64]
  else [240 + n / 262144, 128 + n / 4096 % 64, 128 + n / 64 % 64, 128 + n % 64]

/-- UTF-8 bytes of a string. -/
def utf8Encode (l : PyStr) : List Nat := l.flatMap utf8Char

/-- One shift step of CRC16-CCITT-FALSE: shift, conditionally XOR the
polynomial `0x1021`, mask to 16 bits. -/
def crcShift (c : Nat) : Nat :=
  (if c &&& 32768 ≠ 0 then (c <<< 1) ^^^ 4129 else c <<< 1) &&& 65535

/-- Process one byte: XOR into the high byte, then eight shift steps. -/
def crcByte (c b : Nat) : Nat :=
  crcShift (crcShift (crcShift (crcShift (crcShift (crcShift (crcShift (crcShift
    (c ^^^ (b <<< 8)))))))))

/-- Left fold of `crcByte`.  The register is matched against `0`/successor
(both branches perform the same update) only so that it is evaluated at
every step instead of building a closure tower. -/
def crc16Aux : List Nat → Nat → Nat
  | [], c => c
  | b :: t, 0 => crc16Aux t (crcByte 0 b)
  | b :: t, c + 1 => crc16Aux t (crcByte (c + 1) b)

/-- CRC16-CCITT-FALSE register after processing `data`, initial value `0xFFFF`. -/
def crc16 (data : List Nat) : Nat := crc16Aux data 65535

/-- `PixService._calculate_crc16`: CRC over `payload + "6304"`, formatted
as four uppercase hex digits. -/
def calculateCrc16 (payload : PyStr) : PyStr :=
  toHex4 (crc16 (utf8Encode (payload ++ pyStr ("6304"))))

/-- Latin-1 canonical decompositions `(precomposed, base, combining mark)`
used to model `unicodedata.normalize("NFD", ·)`. -/
def latinDecomp : List (Nat × Nat × Nat) :=
  [(192, 65, 768), (193, 65, 769), (194, 65, 770), (195, 65, 771), (196, 65, 776),
   (197, 65, 778), (199, 67, 807), (200, 69, 768), (201, 69, 769), (202, 69, 770),
   (203, 69, 776), (204, 73, 768), (205, 73, 769), (206, 73, 770), (207, 73, 776),
   (209, 78, 771), (210, 79, 768), (211, 79, 769), (212, 79, 770), (213, 79, 771),
   (214, 79, 776), (217, 85, 768), (218, 85, 769), (219, 85, 770), (220, 85, 776),
   (221, 89, 769), (224, 97, 768), (225, 97, 769), (226, 97, 770), (227, 97, 771),
   (228, 97, 776), (229, 97, 778), (231, 99, 807), (232, 101, 768), (233, 101, 769),
   (234, 101, 770), (235, 101, 776), (236, 105, 768), (237, 105, 769), (238, 105, 770),
   (239, 105, 776), (241, 110, 771), (242, 111, 768), (243, 111, 769), (244, 111, 770),
   (245, 111, 771), (246, 111, 776), (249, 117, 768), (250, 117, 769), (251, 117, 770),
   (252, 117, 776), (253, 121, 769), (255, 121, 776)]

/-- NFD decomposition of one code point (Latin-1 table; identity elsewhere). -/
def nfdChar (n : Nat) : List Nat :=
  match latinDecomp.find? (fun t => t.1 == n) with
  | some t => [t.2.1, t.2.2]
  | none => [n]

/-- Combining marks (category `Mn`): the combining diacritical marks block. -/
def isMn (n : Nat) : Bool := decide (768 ≤ n ∧ n ≤ 879)

/-- `PixService._remove_accents`: NFD-decompose, drop combining marks. -/
def removeAccents (l : PyStr) : PyStr :=
  (l.flatMap nfdChar).filter (fun c => !isMn c)

/-- `PixService._normalize_text`: strip accents, keep `[a-zA-Z0-9 ]`,
collapse whitespace, uppercase, truncate to `maxLength`. -/
def normalizeText (value : PyStr) (maxLength : Nat) : PyStr :=
  if value = [] then []
  else
    (joinSp (pySplit ((removeAccents value).filter isAlnumSp))).map toUpperN
      |>.take maxLength

/-- `PixService._normalize_txid`: strip accents, keep `[a-zA-Z0-9]`,
uppercase, truncate; `"***"` when empty. -/
def normalizeTxid (value : PyStr) (maxLength : Nat) : PyStr :=
  if value = [] then pyStr ("***")
  else
    let r := (((removeAccents value).filter isAlnum).map toUpperN).take maxLength
    if r = [] then pyStr ("***") else r

/-- The UUID regex `^[a-fA-F0-9]{8}-([a-fA-F0-9]{4}-){3}[a-fA-F0-9]{12}$`. -/
def uuidMatch (l : PyStr) : Bool :=
  decide (l.length = 36) && (l.take 8).all isHexC &&
  decide (l.get? 8 = some 45) && ((l.drop 9).take 4).all isHexC &&
  decide (l.get? 13 = some 45) && ((l.drop 14).take 4).all isHexC &&
  decide (l.get? 18 = some 45) && ((l.drop 19).take 4).all isHexC &&
  decide (l.get? 23 = some 45) && (l.drop 24).all isHexC

/-- The formatted-CPF regex `^\d{3}\.\d{3}\.\d{3}-\d{2}$`. -/
def cpfMatch (l : PyStr) : Bool :=
  match l with
  | [a, b, c, p, d, e, f, q, g, h, i, r, j, k] =>
      isDig a && isDig b && isDig c && decide (p = 46) &&
      isDig d && isDig e && isDig f && decide (q = 46) &&
      isDig g && isDig h && isDig i && decide (r = 45) &&
      isDig j && isDig k
  | _ => false

/-- Consume `n` leading `\d` characters. -/
def eatD : Nat → PyStr → Option PyStr
  | 0, l => some l
  | _ + 1, [] => none
  | n + 1, c :: t => if isDig c then eatD n t else none

/-- Consume one optional leading literal character (`c?` in a regex). -/
def eatO (c : Nat) : PyStr → PyStr
  | [] => []
  | a :: t => if a = c then t else a :: t

/-- The CNPJ regex `^\d{2}\.?\d{3}\.?\d{3}/?\d{4}-?\d{2}$` (the optional
punctuation characters are not digits, so the greedy reading is exact). -/
def cnpjMatch (l : PyStr) : Bool :=
  match eatD 2 l with
  | none => false
  | some l1 =>
    match eatD 3 (eatO 46 l1) with
    | none => false
    | some l2 =>
      match eatD 3 (eatO 46 l2) with
      | none => false
      | some l3 =>
        match eatD 4 (eatO 47 l3) with
        | none => false
        | some l4 =>
          match eatD 2 (eatO 45 l4) with
          | none => false
          | some l5 => decide (l5 = [])

/-- `int(s[:2])` for a digit string with at least two characters. -/
def firstTwoVal (l : PyStr) : Nat :=
  match l with
  | a :: b :: _ => (a - 48) * 10 + (b - 48)
  | [a] => a - 48
  | [] => 0

/-- `f"{h[:8]}-{h[8:12]}-{h[12:16]}-{h[16:20]}-{h[20:]}"`. -/
def insertHyphens (h : PyStr) : PyStr :=
  h.take 8 ++ 45 :: ((h.drop 8).take 4) ++ 45 :: ((h.drop 12).take 4) ++
    45 :: ((h.drop 16).take 4) ++ 45 :: h.drop 20

/-- `PixService._normalize_pix_key`, translated branch for branch. -/
def normalizePixKey (key : PyStr) : PyStr :=
  if key = [] then []
  else
    let k := pyStrip key
    if 64 ∈ k then k.map toLowerN
    else if uuidMatch k = true then k.map toLowerN
    else
      let hexOnly := k.filter isHexC
      if hexOnly.length = 32 ∧ k ≠ [] ∧ k.all isHexC = true then
        (insertHyphens hexOnly).map toLowerN
      else
        let digitsOnly := k.filter isDig
        let hasPlus := k.head? = some 43
        if cpfMatch k = true ∧ digitsOnly.length = 11 then digitsOnly
        else if cnpjMatch k = true ∧ digitsOnly.length = 14 then digitsOnly
        else
          let hasParens := 40 ∈ k ∨ 41 ∈ k
          let starts55 := digitsOnly.take 2 = [53, 53]
          let looksBr :=
            (digitsOnly.length = 11 ∧ digitsOnly.get? 2 = some 57 ∧
              11 ≤ firstTwoVal digitsOnly ∧ firstTwoVal digitsOnly ≤ 99) ∨
            (digitsOnly.length = 10 ∧
              11 ≤ firstTwoVal digitsOnly ∧ firstTwoVal digitsOnly ≤ 99)
          let isPhone := hasPlus ∨ hasParens ∨
            (starts55 ∧ 12 ≤ digitsOnly.length) ∨ looksBr
          if isPhone ∧ digitsOnly ≠ [] then
            if hasPlus ∨ (starts55 ∧ 12 ≤ digitsOnly.length) then 43 :: digitsOnly
            else if digitsOnly.length = 11 then 43 :: 53 :: 53 :: digitsOnly
            else if digitsOnly.length = 10 then 43 :: 53 :: 53 :: digitsOnly
            else 43 :: 53 :: 53 :: digitsOnly
          else if digitsOnly.length = 14 then digitsOnly
          else if digitsOnly.length = 11 then digitsOnly
          else k

/-- Python string truthiness: `a or b` for strings. -/
def strOr (a b : PyStr) : PyStr := if a = [] then b else a

/-- The `PixService` instance state after `__init__`. -/
structure PixService where
  pixKey : PyStr
  merchantName : PyStr
  merchantCity : PyStr

/-- `PixService.__init__`: the name and city are normalized on construction. -/
def mkPixService (pixKey merchantName merchantCity : PyStr) : PixService :=
  ⟨pixKey, normalizeText merchantName 25, normalizeText merchantCity 15⟩

/-- Inner value of tag 26 (`_build_merchant_account_info` before wrapping). -/
def maiValue (svc : PixService) (keyOv desc : PyStr) : PyStr :=
  let gui := formatEmvField (pyStr ("00")) (pyStr ("br.gov.bcb.pix"))
  let nk := normalizePixKey (strOr (strOr keyOv svc.pixKey) svc.pixKey)
  let keyField := formatEmvField (pyStr ("01")) nk
  let content := gui ++ keyField
  if desc ≠ [] then
    (let d := normalizeText desc 25
     if d ≠ [] then content ++ formatEmvField (pyStr ("02")) d else content)
  else content

/-- Inner value of tag 62 (`_build_additional_data_field` before wrapping). -/
def adfValue (txid : PyStr) : PyStr :=
  formatEmvField (pyStr ("05")) (normalizeTxid txid 25)

/-- Floor of a rational, computed on the normalized representation. -/
def ratFloor (x : ℚ) : ℤ := Int.fdiv x.num x.den

/-- Round a rational half-to-even to an integer (`Decimal`'s default). -/
def roundHalfEven (x : ℚ) : ℤ :=
  if x - ratFloor x < 1 / 2 then ratFloor x
  else if (1 : ℚ) / 2 < x - ratFloor x then ratFloor x + 1
  else if ratFloor x % 2 = 0 then ratFloor x else ratFloor x + 1

/-- `f"{amount:.2f}"` for a `Decimal` amount: fixed two decimal places.
Only evaluated on positive amounts (the tag-54 guard). -/
def formatAmount (q : ℚ) : PyStr :=
  let n := roundHalfEven (q * 100)
  if n < 0 then
    45 :: (natToDec ((-n).toNat / 100) ++ 46 :: zfill2 (natToDec ((-n).toNat % 100)))
  else natToDec (n.toNat / 100) ++ 46 :: zfill2 (natToDec (n.toNat % 100))

/-- `PixService.generate_pix_code` up to (excluding) the CRC field. -/
def genBody (svc : PixService) (amount : Option ℚ) (desc txid keyOv : PyStr) : PyStr :=
  formatEmvField (pyStr ("00")) (pyStr ("01")) ++
  formatEmvField (pyStr ("26")) (maiValue svc keyOv desc) ++
  formatEmvField (pyStr ("52")) (pyStr ("0000")) ++
  formatEmvField (pyStr ("53")) (pyStr ("986")) ++
  (match amount with
   | some q => if 0 < q then formatEmvField (pyStr ("54")) (formatAmount q) else []
   | none => []) ++
  formatEmvField (pyStr ("58")) (pyStr ("BR")) ++
  formatEmvField (pyStr ("59"))
    (strOr (strOr svc.merchantName svc.merchantName) (pyStr ("PAGAMENTO"))) ++
  formatEmvField (pyStr ("60"))
    (strOr (strOr svc.merchantCity svc.merchantCity) (pyStr ("BRASIL"))) ++
  formatEmvField (pyStr ("62")) (adfValue txid)

/-- `PixService.generate_pix_code`: body, then `"6304"` and the CRC value. -/
def generatePixCode (svc : PixService) (amount : Option ℚ)
    (desc txid keyOv : PyStr) : PyStr :=
  genBody svc amount desc txid keyOv ++ pyStr ("63") ++ pyStr ("04") ++
    calculateCrc16 (genBody svc amount desc txid keyOv)

/-- The top-level `(tag, value)` pairs `generate_pix_code` assembles, in
emission order. -/
def topLevelFields (svc : PixService) (amount : Option ℚ)
    (desc txid keyOv : PyStr) : List (PyStr × PyStr) :=
  [(pyStr ("00"), pyStr ("01")),
   (pyStr ("26"), maiValue svc keyOv desc),
   (pyStr ("52"), pyStr ("0000")),
   (pyStr ("53"), pyStr ("986"))] ++
  (match amount with
   | some q => if 0 < q then [(pyStr ("54"), formatAmount q)] else []
   | none => []) ++
  [(pyStr ("58"), pyStr ("BR")),
   (pyStr ("59"), strOr (strOr svc.merchantName svc.merchantName) (pyStr ("PAGAMENTO"))),
   (pyStr ("60"), strOr (strOr svc.merchantCity svc.merchantCity) (pyStr ("BRASIL"))),
   (pyStr ("62"), adfValue txid),
   (pyStr ("63"), calculateCrc16 (genBody svc amount desc txid keyOv))]

/-- Serialize a field list with `_format_emv_field`. -/
def serializeFields (fs : List (PyStr × PyStr)) : PyStr :=
  fs.foldr (fun p acc => formatEmvField p.1 p.2 ++ acc) []

/-- The inner `(tag, value)` pairs of the tag-26 value. -/
def maiFields (svc : PixService) (keyOv desc : PyStr) : List (PyStr × PyStr) :=
  [(pyStr ("00"), pyStr ("br.gov.bcb.pix")),
   (pyStr ("01"), normalizePixKey (strOr (strOr keyOv svc.pixKey) svc.pixKey))] ++
  (if desc ≠ [] ∧ normalizeText desc 25 ≠ []
   then [(pyStr ("02"), normalizeText desc 25)] else [])

/-- TLV reader with fuel (irrelevant once it is at least the length of
the string): two digit characters of tag, two digit characters of
length, then that many value characters, repeated to the end. -/
def parseFieldsAux : Nat → PyStr → Option (List (PyStr × PyStr))
  | 0, l => if l = [] then some [] else none
  | f + 1, l =>
    match l with
    | [] => some []
    | t1 :: t2 :: l1 :: l2 :: rest =>
        if isDig t1 && isDig t2 && isDig l1 && isDig l2 then
          let n := (l1 - 48) * 10 + (l2 - 48)
          if n ≤ rest.length then
            match parseFieldsAux f (rest.drop n) with
            | some fs => some (([t1, t2], rest.take n) :: fs)
            | none => none
          else none
        else none
    | _ => none

/-- TLV reader: two digit characters of tag, two digit characters of
length, then that many value characters, repeated to the end. -/
def parseFields (l : PyStr) : Option (List (PyStr × PyStr)) :=
  parseFieldsAux l.length l

/-- Sum of `2 (tag) + 2 (length) + len(value)` over a field list. -/
def sumLens (fs : List (PyStr × PyStr)) : Nat :=
  fs.foldr (fun p acc => 4 + p.2.length + acc) 0

/-! ### Basic character and digit lemmas -/

/-- Uppercase hexadecimal digit characters (`0`-`9`, `A`-`F`). -/
def isUpHex (n : Nat) : Bool := decide ((48 ≤ n ∧ n ≤ 57) ∨ (65 ≤ n ∧ n ≤ 70))

theorem hexDig_upHex (d : Nat) (h : d < 16) : isUpHex (hexDig d) = true := by
  simp only [hexDig, isUpHex, decide_eq_true_eq]
  split <;> omega

theorem natToHexAux_upHex :
    ∀ f n, n ≤ f → ∀ c ∈ natToHexAux f n, isUpHex c = true := by
  intro f
  induction f with
  | zero =>
      intro n hn c hc
      simp only [natToHexAux, List.mem_singleton] at hc
      subst hc
      exact hexDig_upHex n (by omega)
  | succ f ih =>
      intro n hn c hc
      simp only [natToHexAux] at hc
      split at hc
      · simp only [List.mem_singleton] at hc
        subst hc
        exact hexDig_upHex n (by omega)
      · rename_i hge
        rcases List.mem_append.1 hc with h1 | h1
        · exact ih (n / 16) (by omega) c h1
        · simp only [List.mem_singleton] at h1
          subst h1
          exact hexDig_upHex _ (Nat.mod_lt _ (by omega))

theorem natToHex_upHex (n : Nat) : ∀ c ∈ natToHex n, isUpHex c = true :=
  natToHexAux_upHex n n le_rfl

theorem toHex4_upHex (n : Nat) : ∀ c ∈ toHex4 n, isUpHex c = true := by
  intro c hc
  unfold toHex4 at hc
  split at hc
  · rcases List.mem_append.1 hc with h1 | h1
    · have := List.eq_of_mem_replicate h1
      subst this
      decide
    · exact natToHex_upHex n c h1
  · exact natToHex_upHex n c hc

theorem natToHexAux_length_le :
    ∀ f k n, n ≤ f → n < 16 ^ (k + 1) → (natToHexAux f n).length ≤ k + 1 := by
  intro f
  induction f with
  | zero =>
      intro k n hn hk
      simp only [natToHexAux, List.length_singleton]
      omega
  | succ f ih =>
      intro k n hn hk
      simp only [natToHexAux]
      split
      · simp only [List.length_singleton]
        omega
      · rename_i hge
        match k with
        | 0 =>
            exfalso
            have h16 : (16 : Nat) ^ (0 + 1) = 16 := by norm_num
            rw [h16] at hk
            omega
        | k + 1 =>
            have hdiv : n / 16 < n := Nat.div_lt_self (by omega) (by omega)
            have h1 : n / 16 ≤ f := by omega
            have h2 : n / 16 < 16 ^ (k + 1) := by
              rw [Nat.div_lt_iff_lt_mul (by norm_num)]
              have hpow : (16 : Nat) ^ (k + 1) * 16 = 16 ^ (k + 1 + 1) := by ring
              rw [hpow]
              exact hk
            have h3 := ih k (n / 16) h1 h2
            rw [List.length_append, List.length_singleton]
            omega

theorem toHex4_length (n : Nat) (h : n < 65536) : (toHex4 n).length = 4 := by
  have h4 : (natToHex n).length ≤ 4 := by
    have : n < 16 ^ (3 + 1) := by norm_num; omega
    exact natToHexAux_length_le n 3 n le_rfl this
  unfold toHex4
  split
  · simp only [List.length_append, List.length_replicate]
    omega
  · omega

/-! ### CRC register bounds -/

theorem crcShift_lt (c : Nat) : crcShift c < 65536 := by
  have h : ((if c &&& 32768 ≠ 0 then (c <<< 1) ^^^ 4129 else c <<< 1) &&& 65535) ≤ 65535 :=
    Nat.and_le_right
  unfold crcShift
  omega

theorem crcByte_lt (c b : Nat) : crcByte c b < 65536 := crcShift_lt _

theorem crc16Aux_cons (b : Nat) (t : List Nat) (c : Nat) :
    crc16Aux (b :: t) c = crc16Aux t (crcByte c b) := by
  cases c <;> rfl

theorem crc16Aux_lt : ∀ (l : List Nat) (c : Nat), c < 65536 → crc16Aux l c < 65536 := by
  intro l
  induction l with
  | nil => intro c hc; exact hc
  | cons b t ih =>
      intro c hc
      rw [crc16Aux_cons]
      exact ih _ (crcByte_lt c b)

theorem crc16_lt (data : List Nat) : crc16 data < 65536 :=
  crc16Aux_lt data 65535 (by omega)

/-! ### Shape of the generated payload -/

theorem generate_eq_parts (svc : PixService) (amount : Option ℚ) (desc txid keyOv : PyStr) :
    generatePixCode svc amount desc txid keyOv =
      (genBody svc amount desc txid keyOv ++ pyStr ("6304")) ++
        toHex4 (crc16 (utf8Encode (genBody svc amount desc txid keyOv ++ pyStr ("6304")))) := by
  have h1 : pyStr ("63") ++ pyStr ("04") = pyStr ("6304") := by decide
  unfold generatePixCode calculateCrc16
  rw [List.append_assoc (genBody svc amount desc txid keyOv) (pyStr ("63")) (pyStr ("04")), h1]

/-- C1.  Round-trip checksum: the output of `generate_pix_code` ends in four
uppercase hexadecimal digits, and recomputing CRC16-CCITT-FALSE (initial
register `0xFFFF`, polynomial `0x1021`, per-byte high-byte XOR with eight
shift-and-conditionally-XOR steps masked to 16 bits) over the UTF-8 bytes of
the output minus its last four characters yields exactly those last four
characters. -/
theorem crc16_roundtrip (svc : PixService) (amount : Option ℚ)
    (desc txid keyOv : PyStr) :
    4 ≤ (generatePixCode svc amount desc txid keyOv).length ∧
    ((generatePixCode svc amount desc txid keyOv).drop
        ((generatePixCode svc amount desc txid keyOv).length - 4)).length = 4 ∧
    (∀ ch ∈ (generatePixCode svc amount desc txid keyOv).drop
        ((generatePixCode svc amount desc txid keyOv).length - 4), isUpHex ch = true) ∧
    toHex4 (crc16 (utf8Encode ((generatePixCode svc amount desc txid keyOv).take
        ((generatePixCode svc amount desc txid keyOv).length - 4)))) =
      (generatePixCode svc amount desc txid keyOv).drop
        ((generatePixCode svc amount desc txid keyOv).length - 4) := by
  have hdec := generate_eq_parts svc amount desc txid keyOv
  set P := genBody svc amount desc txid keyOv ++ pyStr ("6304") with hP
  set H := toHex4 (crc16 (utf8Encode P)) with hH
  have hHlen : H.length = 4 := toHex4_length _ (crc16_lt _)
  have hslen : (generatePixCode svc amount desc txid keyOv).length = P.length + 4 := by
    rw [hdec, List.length_append, hHlen]
  have hsub : (generatePixCode svc amount desc txid keyOv).length - 4 = P.length := by
    omega
  have htake : (generatePixCode svc amount desc txid keyOv).take
      ((generatePixCode svc amount desc txid keyOv).length - 4) = P := by
    rw [hsub, hdec, List.take_left]
  have hdrop : (generatePixCode svc amount desc txid keyOv).drop
      ((generatePixCode svc amount desc txid keyOv).length - 4) = H := by
    rw [hsub, hdec, List.drop_left]
  refine ⟨by omega, by rw [hdrop]; exact hHlen, ?_, ?_⟩
  · intro ch hch
    rw [hdrop] at hch
    exact toHex4_upHex _ ch hch
  · rw [htake, hdrop]

/-! ### The payload as a serialized field list -/

theorem calculateCrc16_length (payload : PyStr) : (calculateCrc16 payload).length = 4 :=
  toHex4_length _ (crc16_lt _)

theorem formatEmvField_crc (payload : PyStr) :
    formatEmvField (pyStr ("63")) (calculateCrc16 payload) =
      pyStr ("63") ++ pyStr ("04") ++ calculateCrc16 payload := by
  unfold formatEmvField
  rw [calculateCrc16_length]
  have h : zfill2 (natToDec 4) = pyStr ("04") := by decide
  rw [h]

theorem serializeFields_append (a b : List (PyStr × PyStr)) :
    serializeFields (a ++ b) = serializeFields a ++ serializeFields b := by
  unfold serializeFields
  rw [List.foldr_append]
  induction a with
  | nil => simp
  | cons p t ih => simp [ih, List.append_assoc]

theorem serialize_top (svc : PixService) (amount : Option ℚ) (desc txid keyOv : PyStr) :
    serializeFields (topLevelFields svc amount desc txid keyOv) =
      genBody svc amount desc txid keyOv ++
        formatEmvField (pyStr ("63"))
          (calculateCrc16 (genBody svc amount desc txid keyOv)) := by
  unfold topLevelFields genBody
  cases amount with
  | none =>
      simp [serializeFields, List.append_assoc]
  | some q =>
      by_cases h0 : 0 < q <;>
        simp [serializeFields, List.append_assoc, h0]

theorem gen_serialize (svc : PixService) (amount : Option ℚ) (desc txid keyOv : PyStr) :
    generatePixCode svc amount desc txid keyOv =
      serializeFields (topLevelFields svc amount desc txid keyOv) := by
  rw [serialize_top, formatEmvField_crc]
  unfold generatePixCode
  simp [List.append_assoc]

/-- `amount is not None and amount > 0`. -/
def amountPos : Option ℚ → Bool
  | none => false
  | some q => decide (0 < q)

/-- C2.  Field order and mandatory fields: for every input,
`generate_pix_code` emits the top-level TLV fields in exactly the order
00, 26, 52, 53, (54 only when the amount is present and positive), 58, 59,
60, 62, 63; field 00 has value `"01"`, field 52 `"0000"`, field 53 `"986"`,
field 58 `"BR"`; every field other than 54 is always present; and a
top-level point-of-initiation field with tag 01 is never emitted. -/
theorem field_order (svc : PixService) (amount : Option ℚ) (desc txid keyOv : PyStr) :
    generatePixCode svc amount desc txid keyOv =
      serializeFields (topLevelFields svc amount desc txid keyOv) ∧
    (topLevelFields svc amount desc txid keyOv).map Prod.fst =
      (if amountPos amount = true
       then [pyStr ("00"), pyStr ("26"), pyStr ("52"), pyStr ("53"), pyStr ("54"),
             pyStr ("58"), pyStr ("59"), pyStr ("60"), pyStr ("62"), pyStr ("63")]
       else [pyStr ("00"), pyStr ("26"), pyStr ("52"), pyStr ("53"),
             pyStr ("58"), pyStr ("59"), pyStr ("60"), pyStr ("62"), pyStr ("63")]) ∧
    (pyStr ("00"), pyStr ("01")) ∈ topLevelFields svc amount desc txid keyOv ∧
    (pyStr ("52"), pyStr ("0000")) ∈ topLevelFields svc amount desc txid keyOv ∧
    (pyStr ("53"), pyStr ("986")) ∈ topLevelFields svc amount desc txid keyOv ∧
    (pyStr ("58"), pyStr ("BR")) ∈ topLevelFields svc amount desc txid keyOv ∧
    pyStr ("01") ∉ (topLevelFields svc amount desc txid keyOv).map Prod.fst := by
  refine ⟨gen_serialize svc amount desc txid keyOv, ?_, ?_, ?_, ?_, ?_, ?_⟩ <;>
    · simp only [topLevelFields, amountPos]
      cases amount with
      | none => simp <;> decide
      | some q =>
          by_cases h0 : 0 < q <;> simp [h0] <;> decide

theorem formatAmount_ten_half : formatAmount (10.5 : ℚ) = pyStr ("10.50") := by
  have h1 : ((10.5 : ℚ) * 100) = 1050 := by norm_num
  have h : roundHalfEven ((10.5 : ℚ) * 100) = 1050 := by
    rw [h1]
    unfold roundHalfEven ratFloor
    norm_num
  unfold formatAmount
  rw [h]
  decide

theorem topFields_tags (svc : PixService) (amount : Option ℚ) (desc txid keyOv : PyStr) :
    (topLevelFields svc amount desc txid keyOv).map Prod.fst =
      if amountPos amount = true
      then [pyStr ("00"), pyStr ("26"), pyStr ("52"), pyStr ("53"), pyStr ("54"),
            pyStr ("58"), pyStr ("59"), pyStr ("60"), pyStr ("62"), pyStr ("63")]
      else [pyStr ("00"), pyStr ("26"), pyStr ("52"), pyStr ("53"),
            pyStr ("58"), pyStr ("59"), pyStr ("60"), pyStr ("62"), pyStr ("63")] := by
  simp only [topLevelFields, amountPos]
  cases amount with
  | none => simp
  | some q => by_cases h0 : 0 < q <;> simp [h0]

/-- C6.  Amount field boundary: tag 54 appears among the emitted fields
iff an amount is supplied and strictly positive; for `None` or `0` no
tag-54 field appears; for amount `10.5` the tag-54 value is exactly
`"10.50"`. -/
theorem amount_boundary (svc : PixService) (amount : Option ℚ) (desc txid keyOv : PyStr) :
    generatePixCode svc amount desc txid keyOv =
      serializeFields (topLevelFields svc amount desc txid keyOv) ∧
    (pyStr ("54") ∈ (topLevelFields svc amount desc txid keyOv).map Prod.fst ↔
      ∃ q, amount = some q ∧ 0 < q) ∧
    (amount = none →
      pyStr ("54") ∉ (topLevelFields svc amount desc txid keyOv).map Prod.fst) ∧
    (amount = some 0 →
      pyStr ("54") ∉ (topLevelFields svc amount desc txid keyOv).map Prod.fst) ∧
    (amount = some (10.5 : ℚ) →
      (pyStr ("54"), pyStr ("10.50")) ∈ topLevelFields svc amount desc txid keyOv) := by
  refine ⟨gen_serialize svc amount desc txid keyOv, ?_, ?_, ?_, ?_⟩
  · rw [topFields_tags]
    cases amount with
    | none =>
        rw [if_neg (by simp [amountPos])]
        constructor
        · intro h
          exact absurd h (by decide)
        · rintro ⟨q, hq, _⟩
          exact Option.noConfusion hq
    | some q =>
        by_cases h0 : 0 < q
        · rw [if_pos (by simp [amountPos, h0])]
          exact ⟨fun _ => ⟨q, rfl, h0⟩, fun _ => by decide⟩
        · rw [if_neg (by simp [amountPos, h0])]
          constructor
          · intro h
            exact absurd h (by decide)
          · rintro ⟨q', hq', hq0⟩
            rw [Option.some_inj] at hq'
            subst hq'
            exact absurd hq0 h0
  · rintro rfl
    rw [topFields_tags]
    rw [if_neg (by simp [amountPos])]
    decide
  · rintro rfl
    rw [topFields_tags]
    rw [if_neg (by simp [amountPos])]
    decide
  · rintro rfl
    have h0 : (0 : ℚ) < 10.5 := by norm_num
    simp only [topLevelFields, h0, if_true]
    rw [formatAmount_ten_half]
    simp

/-- Witness for C6 at a concrete service and amount `10.5`. -/
theorem amount_boundary_witness :
    (some (10.5 : ℚ) = some (10.5 : ℚ)) ∧
    (pyStr ("54"), pyStr ("10.50")) ∈
      topLevelFields (mkPixService (pyStr ("k@x.co")) [] []) (some (10.5 : ℚ))
        [] [] [] :=
  ⟨rfl, (amount_boundary (mkPixService (pyStr ("k@x.co")) [] []) (some (10.5 : ℚ))
    [] [] []).2.2.2.2 rfl⟩

theorem negAmount_eq (svc : PixService) (desc txid keyOv : PyStr)
    (q : ℚ) (h : ¬ (0 < q)) :
    generatePixCode svc (some q) desc txid keyOv =
      generatePixCode svc none desc txid keyOv := by
  unfold generatePixCode genBody
  simp only [h, if_false]

/-- C4 (amended).  A negative supplied amount is not rejected: the code
treats it exactly like an absent amount and still returns the payload. -/
theorem negative_amount_ignored (svc : PixService) (desc txid keyOv : PyStr)
    (q : ℚ) (h : q < 0) :
    generatePixCode svc (some q) desc txid keyOv =
      generatePixCode svc none desc txid keyOv :=
  negAmount_eq svc desc txid keyOv q (by linarith)

/-- Counterexample to C4 as stated: at amount `-1` the encoder does not
fail; it returns the same well-formed payload as with no amount. -/
theorem negative_amount_ce :
    generatePixCode (mkPixService (pyStr ("k@x.co")) [] []) (some (-1)) [] [] [] =
      generatePixCode (mkPixService (pyStr ("k@x.co")) [] []) none [] [] [] ∧
    (generatePixCode (mkPixService (pyStr ("k@x.co")) [] []) (some (-1))
      [] [] []).take 6 = pyStr ("000201") := by
  constructor
  · have h0 : ¬ ((0 : ℚ) < -1) := by norm_num
    unfold generatePixCode genBody
    simp only [h0, if_false]
  · have h0 : ¬ ((0 : ℚ) < -1) := by norm_num
    unfold generatePixCode genBody
    simp only [h0, if_false]
    decide

/-- Witness for the amended C4 at amount `-2`. -/
theorem negative_amount_witness :
    ((-2 : ℚ) < 0) ∧
    generatePixCode (mkPixService (pyStr ("w@y.br")) [] []) (some (-2)) [] [] [] =
      generatePixCode (mkPixService (pyStr ("w@y.br")) [] []) none [] [] [] :=
  ⟨by norm_num,
   negative_amount_ignored (mkPixService (pyStr ("w@y.br")) [] []) [] [] [] (-2)
     (by norm_num)⟩

/-! ### Decimal length prefixes -/

theorem natToDecAux_small (f m : Nat) (h : m < 10) : natToDecAux f m = [48 + m] := by
  cases f <;> simp [natToDecAux, h]

theorem natToDec_eq_two (n : Nat) (h1 : 10 ≤ n) (h2 : n ≤ 99) :
    natToDec n = [48 + n / 10, 48 + n % 10] := by
  obtain ⟨f, hf⟩ : ∃ f, n = f + 1 := ⟨n - 1, by omega⟩
  unfold natToDec
  conv_lhs => rw [hf]
  rw [show natToDecAux (f + 1) (f + 1) =
      natToDecAux f ((f + 1) / 10) ++ [48 + (f + 1) % 10] by
    simp [natToDecAux, show ¬ (f + 1 < 10) by omega]]
  rw [natToDecAux_small f ((f + 1) / 10) (by omega)]
  rw [← hf]
  rfl

theorem zfill2_two_digits (n : Nat) (h : n ≤ 99) :
    zfill2 (natToDec n) = [48 + n / 10, 48 + n % 10] := by
  by_cases h10 : n < 10
  · have h1 : natToDec n = [48 + n] := natToDecAux_small n n h10
    rw [h1]
    unfold zfill2
    rw [if_pos (by simp)]
    rw [Nat.div_eq_of_lt h10, Nat.mod_eq_of_lt h10]
    rfl
  · rw [natToDec_eq_two n (by omega) h]
    unfold zfill2
    rw [if_neg (by simp)]

theorem natToDecAux_len_pos : ∀ f n, 1 ≤ (natToDecAux f n).length := by
  intro f n
  cases f <;> simp only [natToDecAux]
  · simp
  · split <;> simp

theorem natToDecAux_len_ge2 : ∀ f n, n ≤ f → 10 ≤ n → 2 ≤ (natToDecAux f n).length := by
  intro f
  cases f with
  | zero => intro n hn h10; omega
  | succ f =>
      intro n hn h10
      simp only [natToDecAux, show ¬ (n < 10) by omega, if_false, List.length_append,
        List.length_singleton]
      have := natToDecAux_len_pos f (n / 10)
      omega

theorem natToDecAux_len_ge3 : ∀ f n, n ≤ f → 100 ≤ n → 3 ≤ (natToDecAux f n).length := by
  intro f
  cases f with
  | zero => intro n hn h100; omega
  | succ f =>
      intro n hn h100
      simp only [natToDecAux, show ¬ (n < 10) by omega, if_false, List.length_append,
        List.length_singleton]
      have := natToDecAux_len_ge2 f (n / 10) (by omega) (by omega)
      omega

theorem natToDec_len_ge3 (n : Nat) (h : 100 ≤ n) : 3 ≤ (natToDec n).length :=
  natToDecAux_len_ge3 n n le_rfl h

theorem zfill2_id (l : PyStr) (h : 2 ≤ l.length) : zfill2 l = l := by
  unfold zfill2
  rw [if_neg (by omega)]

/-- C3 (amended).  For a value of at most 99 characters the field builder
returns `tag ++ zero-padded-2-digit-length ++ value`; for a longer value it
does not fail: it returns `tag ++ decimal-length ++ value` with a length
prefix of at least three digits. -/
theorem buildField_length (tag value : PyStr) :
    (value.length ≤ 99 →
      formatEmvField tag value =
        tag ++ [48 + value.length / 10, 48 + value.length % 10] ++ value) ∧
    (99 < value.length →
      formatEmvField tag value = tag ++ natToDec value.length ++ value ∧
        3 ≤ (natToDec value.length).length) := by
  constructor
  · intro h
    unfold formatEmvField
    rw [zfill2_two_digits _ h]
  · intro h
    have h3 : 3 ≤ (natToDec value.length).length := natToDec_len_ge3 _ (by omega)
    refine ⟨?_, h3⟩
    unfold formatEmvField
    rw [zfill2_id _ (by omega)]

/-- Counterexample to C3 as stated: at a 100-character value
`_format_emv_field` does not fail with `FieldTooLong`; it returns the
serialized field, with a three-digit length prefix. -/
theorem buildField_ce :
    formatEmvField (pyStr ("26")) (List.replicate 100 97) =
      pyStr ("26100") ++ List.replicate 100 97 := by decide

/-- Witness for C3 (amended), exercising both the short and the long case. -/
theorem buildField_witness :
    ((pyStr ("ABCDE")).length ≤ 99 ∧
      formatEmvField (pyStr ("62")) (pyStr ("ABCDE")) =
        pyStr ("62") ++ [48 + (pyStr ("ABCDE")).length / 10,
          48 + (pyStr ("ABCDE")).length % 10] ++ pyStr ("ABCDE")) ∧
    (99 < (List.replicate 100 97 : PyStr).length ∧
      formatEmvField (pyStr ("01")) (List.replicate 100 97) =
        pyStr ("01") ++ natToDec (List.replicate 100 97 : PyStr).length ++
          List.replicate 100 97 ∧
      3 ≤ (natToDec (List.replicate 100 97 : PyStr).length).length) :=
  ⟨⟨by decide, (buildField_length (pyStr ("62")) (pyStr ("ABCDE"))).1 (by decide)⟩,
   by decide,
   (buildField_length (pyStr ("01")) (List.replicate 100 97)).2 (by decide)⟩

theorem maiValue_key_decomp (svc : PixService) (keyOv desc : PyStr) :
    ∃ pre2 post2 : PyStr,
      maiValue svc keyOv desc =
        pre2 ++ (pyStr ("01") ++
          lenStr (normalizePixKey (strOr (strOr keyOv svc.pixKey) svc.pixKey)) ++
          normalizePixKey (strOr (strOr keyOv svc.pixKey) svc.pixKey)) ++ post2 := by
  by_cases hd : desc = []
  · refine ⟨formatEmvField (pyStr ("00")) (pyStr ("br.gov.bcb.pix")), [], ?_⟩
    unfold maiValue
    rw [if_neg (by simp [hd])]
    simp [formatEmvField, lenStr, List.append_assoc]
  · by_cases hd2 : normalizeText desc 25 = []
    · refine ⟨formatEmvField (pyStr ("00")) (pyStr ("br.gov.bcb.pix")), [], ?_⟩
      unfold maiValue
      rw [if_pos (by simpa using hd)]
      simp only [hd2, ne_eq, not_true_eq_false, if_false]
      simp [formatEmvField, lenStr, List.append_assoc]
    · refine ⟨formatEmvField (pyStr ("00")) (pyStr ("br.gov.bcb.pix")),
        formatEmvField (pyStr ("02")) (normalizeText desc 25), ?_⟩
      unfold maiValue
      rw [if_pos (by simpa using hd)]
      simp only [ne_eq, hd2, not_false_eq_true, if_true]
      simp [formatEmvField, lenStr, List.append_assoc]

/-- C10.  Totality of encoding: for every input -- any key, merchant
strings, description, transaction id, and any amount including negative
ones -- `generate_pix_code` returns the serialized payload (no failure);
a negative amount is treated like no amount; and a normalized key longer
than 99 characters is still serialized, with a length prefix of at least
three digits. -/
theorem encode_total (svc : PixService) (amount : Option ℚ) (desc txid keyOv : PyStr) :
    generatePixCode svc amount desc txid keyOv =
      serializeFields (topLevelFields svc amount desc txid keyOv) ∧
    (∀ q : ℚ, q < 0 →
      generatePixCode svc (some q) desc txid keyOv =
        generatePixCode svc none desc txid keyOv) ∧
    (99 < (normalizePixKey (strOr (strOr keyOv svc.pixKey) svc.pixKey)).length →
      (∃ pre post : PyStr,
        generatePixCode svc amount desc txid keyOv =
          pre ++ (pyStr ("01") ++
            natToDec (normalizePixKey (strOr (strOr keyOv svc.pixKey) svc.pixKey)).length ++
            normalizePixKey (strOr (strOr keyOv svc.pixKey) svc.pixKey)) ++ post) ∧
      3 ≤ (natToDec
        (normalizePixKey (strOr (strOr keyOv svc.pixKey) svc.pixKey)).length).length) := by
  refine ⟨gen_serialize svc amount desc txid keyOv,
    fun q hq => negAmount_eq svc desc txid keyOv q (by linarith), ?_⟩
  intro hlen
  have h3 : 3 ≤ (natToDec
      (normalizePixKey (strOr (strOr keyOv svc.pixKey) svc.pixKey)).length).length :=
    natToDec_len_ge3 _ (by omega)
  refine ⟨?_, h3⟩
  obtain ⟨pre2, post2, hm⟩ := maiValue_key_decomp svc keyOv desc
  have hkey : lenStr (normalizePixKey (strOr (strOr keyOv svc.pixKey) svc.pixKey)) =
      natToDec (normalizePixKey (strOr (strOr keyOv svc.pixKey) svc.pixKey)).length := by
    unfold lenStr
    exact zfill2_id _ (by omega)
  refine ⟨formatEmvField (pyStr ("00")) (pyStr ("01")) ++ pyStr ("26") ++
      lenStr (maiValue svc keyOv desc) ++ pre2,
    post2 ++ formatEmvField (pyStr ("52")) (pyStr ("0000")) ++
      formatEmvField (pyStr ("53")) (pyStr ("986")) ++
      (match amount with
       | some q => if 0 < q then formatEmvField (pyStr ("54")) (formatAmount q) else []
       | none => []) ++
      formatEmvField (pyStr ("58")) (pyStr ("BR")) ++
      formatEmvField (pyStr ("59"))
        (strOr (strOr svc.merchantName svc.merchantName) (pyStr ("PAGAMENTO"))) ++
      formatEmvField (pyStr ("60"))
        (strOr (strOr svc.merchantCity svc.merchantCity) (pyStr ("BRASIL"))) ++
      formatEmvField (pyStr ("62")) (adfValue txid) ++ pyStr ("63") ++ pyStr ("04") ++
      calculateCrc16 (genBody svc amount desc txid keyOv), ?_⟩
  rw [← hkey]
  unfold generatePixCode genBody
  rw [show formatEmvField (pyStr ("26")) (maiValue svc keyOv desc) =
    pyStr ("26") ++ lenStr (maiValue svc keyOv desc) ++ maiValue svc keyOv desc from rfl]
  rw [hm]
  simp only [List.append_assoc]

/-- Witness for C10 with a 100-character key and a negative amount. -/
theorem encode_total_witness :
    (((-3 : ℚ) < 0) ∧
      generatePixCode (mkPixService (List.replicate 100 97) [] []) (some (-3)) [] [] [] =
        generatePixCode (mkPixService (List.replicate 100 97) [] []) none [] [] []) ∧
    (99 < (normalizePixKey (strOr (strOr []
        (mkPixService (List.replicate 100 97) [] []).pixKey)
        (mkPixService (List.replicate 100 97) [] []).pixKey)).length ∧
      ((∃ pre post : PyStr,
        generatePixCode (mkPixService (List.replicate 100 97) [] []) none [] [] [] =
          pre ++ (pyStr ("01") ++
            natToDec (normalizePixKey (strOr (strOr []
              (mkPixService (List.replicate 100 97) [] []).pixKey)
              (mkPixService (List.replicate 100 97) [] []).pixKey)).length ++
            normalizePixKey (strOr (strOr []
              (mkPixService (List.replicate 100 97) [] []).pixKey)
              (mkPixService (List.replicate 100 97) [] []).pixKey)) ++ post) ∧
        3 ≤ (natToDec (normalizePixKey (strOr (strOr []
          (mkPixService (List.replicate 100 97) [] []).pixKey)
          (mkPixService (List.replicate 100 97) [] []).pixKey)).length).length)) :=
  ⟨⟨by norm_num,
    (encode_total (mkPixService (List.replicate 100 97) [] []) (some (-3)) [] [] []).2.1
      (-3) (by norm_num)⟩,
   by decide,
   (encode_total (mkPixService (List.replicate 100 97) [] []) none [] [] []).2.2
     (by decide)⟩

/-! ### TLV parsing of well-formed serializations -/

theorem parseFieldsAux_fuel :
    ∀ f1 (l : PyStr) (f2 : Nat), l.length ≤ f1 → l.length ≤ f2 →
      parseFieldsAux f1 l = parseFieldsAux f2 l := by
  intro f1
  induction f1 with
  | zero =>
      intro l f2 h1 h2
      have hl : l = [] := List.eq_nil_of_length_eq_zero (by omega)
      subst hl
      cases f2 <;> simp [parseFieldsAux]
  | succ f1 ih =>
      intro l f2 h1 h2
      match l, f2 with
      | [], f2 => cases f2 <;> simp [parseFieldsAux]
      | a :: l', 0 => simp at h2
      | [a], f2 + 1 => simp [parseFieldsAux]
      | [a, b], f2 + 1 => simp [parseFieldsAux]
      | [a, b, c], f2 + 1 => simp [parseFieldsAux]
      | a :: b :: c :: d :: rest, f2 + 1 =>
          simp only [parseFieldsAux]
          by_cases hc : (isDig a && isDig b && isDig c && isDig d) = true
          · simp only [hc, if_true]
            by_cases hn : (c - 48) * 10 + (d - 48) ≤ rest.length
            · simp only [hn, if_true]
              rw [ih (rest.drop ((c - 48) * 10 + (d - 48))) f2
                (by simp at h1 ⊢; omega) (by simp at h2 ⊢; omega)]
            · simp [hn]
          · simp [hc]

theorem parseFieldsAux_cons4 (f : Nat) (t1 t2 l1 l2 : Nat) (rest : PyStr) :
    parseFieldsAux (f + 1) (t1 :: t2 :: l1 :: l2 :: rest) =
      if (isDig t1 && isDig t2 && isDig l1 && isDig l2) = true then
        if (l1 - 48) * 10 + (l2 - 48) ≤ rest.length then
          match parseFieldsAux f (rest.drop ((l1 - 48) * 10 + (l2 - 48))) with
          | some fs => some (([t1, t2], rest.take ((l1 - 48) * 10 + (l2 - 48))) :: fs)
          | none => none
        else none
      else none := rfl

theorem parseFields_field (t1 t2 : Nat) (v rest : PyStr)
    (ht1 : isDig t1 = true) (ht2 : isDig t2 = true) (hv : v.length ≤ 99) :
    parseFields (formatEmvField [t1, t2] v ++ rest) =
      (parseFields rest).map (fun fs => ([t1, t2], v) :: fs) := by
  have hz : zfill2 (natToDec v.length) = [48 + v.length / 10, 48 + v.length % 10] :=
    zfill2_two_digits _ hv
  have hshape : formatEmvField [t1, t2] v ++ rest =
      t1 :: t2 :: (48 + v.length / 10) :: (48 + v.length % 10) :: (v ++ rest) := by
    unfold formatEmvField
    rw [hz]
    simp
  have hd1 : isDig (48 + v.length / 10) = true := by
    simp only [isDig, decide_eq_true_eq]
    omega
  have hd2 : isDig (48 + v.length % 10) = true := by
    have := Nat.mod_lt v.length (show 0 < 10 by omega)
    simp only [isDig, decide_eq_true_eq]
    omega
  have hn : (48 + v.length / 10 - 48) * 10 + (48 + v.length % 10 - 48) = v.length := by
    omega
  have hle : v.length ≤ (v ++ rest).length := by simp
  rw [hshape]
  unfold parseFields
  rw [show (t1 :: t2 :: (48 + v.length / 10) :: (48 + v.length % 10) ::
      (v ++ rest)).length = (v ++ rest).length + 3 + 1 by
    simp only [List.length_cons]]
  rw [parseFieldsAux_cons4]
  rw [if_pos (by simp [ht1, ht2, hd1, hd2])]
  rw [hn]
  rw [if_pos hle]
  rw [List.take_left, List.drop_left]
  rw [parseFieldsAux_fuel ((v ++ rest).length + 3) rest rest.length
    (by simp; omega) le_rfl]
  cases h : parseFieldsAux rest.length rest <;> simp [h]

theorem parseFieldsAux_length :
    ∀ f (l : PyStr) fs, parseFieldsAux f l = some fs → l.length = sumLens fs := by
  intro f
  induction f with
  | zero =>
      intro l fs h
      by_cases hl : l = []
      · subst hl
        rw [show parseFieldsAux 0 ([] : PyStr) = some [] from rfl] at h
        injection h with h2
        subst h2
        rfl
      · simp only [parseFieldsAux, if_neg hl] at h
        exact Option.noConfusion h
  | succ f ih =>
      intro l fs h
      match l with
      | [] =>
          simp only [parseFieldsAux, Option.some_inj] at h
          subst h
          rfl
      | [a] => simp [parseFieldsAux] at h
      | [a, b] => simp [parseFieldsAux] at h
      | [a, b, c] => simp [parseFieldsAux] at h
      | a :: b :: c :: d :: rest =>
          simp only [parseFieldsAux] at h
          by_cases hc : (isDig a && isDig b && isDig c && isDig d) = true
          · simp only [hc, if_true] at h
            by_cases hn : (c - 48) * 10 + (d - 48) ≤ rest.length
            · simp only [hn, if_true] at h
              rcases hrec : parseFieldsAux f (rest.drop ((c - 48) * 10 + (d - 48)))
                with _ | fs'
              · rw [hrec] at h
                exact Option.noConfusion h
              · rw [hrec] at h
                simp only [Option.some_inj] at h
                subst h
                have h1 := ih _ fs' hrec
                simp only [sumLens, List.foldr_cons]
                have h2 : (rest.take ((c - 48) * 10 + (d - 48))).length =
                    (c - 48) * 10 + (d - 48) := by
                  rw [List.length_take]
                  omega
                simp only [List.length_cons, List.length_drop] at h1 ⊢
                rw [h2]
                unfold sumLens at h1
                omega
            · simp only [hn, if_false] at h
              exact Option.noConfusion h
          · simp only [hc, if_false] at h
            exact Option.noConfusion h

theorem parseFields_length (l : PyStr) (fs : List (PyStr × PyStr))
    (h : parseFields l = some fs) : l.length = sumLens fs :=
  parseFieldsAux_length l.length l fs h

/-- A serialized list of fields with digit tags and values of at most 99
characters parses back to itself. -/
theorem parse_serialize (fs : List (PyStr × PyStr))
    (h : ∀ p ∈ fs,
      (∃ t1 t2, p.1 = [t1, t2] ∧ isDig t1 = true ∧ isDig t2 = true) ∧
        p.2.length ≤ 99) :
    parseFields (serializeFields fs) = some fs := by
  induction fs with
  | nil => rfl
  | cons p t ih =>
      obtain ⟨⟨t1, t2, hp, h1, h2⟩, hv⟩ := h p (List.mem_cons_self p t)
      have hser : serializeFields (p :: t) =
          formatEmvField [t1, t2] p.2 ++ serializeFields t := by
        unfold serializeFields
        rw [← hp]
        rfl
      rw [hser, parseFields_field t1 t2 p.2 _ h1 h2 hv,
        ih (fun q hq => h q (List.mem_cons_of_mem p hq))]
      simp [← hp]

/-! ### Length bounds on emitted values -/

theorem normText_len (v : PyStr) (n : Nat) : (normalizeText v n).length ≤ n := by
  unfold normalizeText
  split
  · simp
  · simp [List.length_take]

theorem normTxid_le (v : PyStr) : (normalizeTxid v 25).length ≤ 25 := by
  unfold normalizeTxid
  split
  · decide
  · dsimp only
    split
    · decide
    · simp [List.length_take]

theorem strOr_self_or_default (m d : PyStr) :
    strOr (strOr m m) d = if m = [] then d else m := by
  unfold strOr
  by_cases hm : m = [] <;> simp [hm]

theorem maiValue_eq_serialize (svc : PixService) (keyOv desc : PyStr) :
    maiValue svc keyOv desc = serializeFields (maiFields svc keyOv desc) := by
  unfold maiValue maiFields
  by_cases hd : desc = []
  · rw [if_neg (by simp [hd]), if_neg (by simp [hd])]
    simp [serializeFields, List.append_assoc]
  · by_cases hd2 : normalizeText desc 25 = []
    · rw [if_pos (by simpa using hd), if_neg (by simp [hd2])]
      simp only [hd2, ne_eq, not_true_eq_false, if_false]
      simp [serializeFields, List.append_assoc]
    · rw [if_pos (by simpa using hd), if_pos (by simp [hd, hd2])]
      simp only [ne_eq, hd2, not_false_eq_true, if_true]
      simp [serializeFields, List.append_assoc, hd, hd2]

theorem adfValue_eq_serialize (txid : PyStr) :
    adfValue txid = serializeFields [(pyStr ("05"), normalizeTxid txid 25)] := by
  simp [adfValue, serializeFields]

theorem maiFields_ok (svc : PixService) (keyOv desc : PyStr)
    (hk : (normalizePixKey (strOr (strOr keyOv svc.pixKey) svc.pixKey)).length ≤ 48) :
    ∀ p ∈ maiFields svc keyOv desc,
      (∃ t1 t2, p.1 = [t1, t2] ∧ isDig t1 = true ∧ isDig t2 = true) ∧
        p.2.length ≤ 99 := by
  intro p hp
  unfold maiFields at hp
  rcases List.mem_append.1 hp with h1 | h1
  · rcases List.mem_cons.1 h1 with h2 | h2
    · subst h2
      exact ⟨⟨48, 48, by decide, by decide, by decide⟩, by decide⟩
    · rcases List.mem_cons.1 h2 with h3 | h3
      · subst h3
        refine ⟨⟨48, 49, rfl, by decide, by decide⟩, ?_⟩
        show (normalizePixKey (strOr (strOr keyOv svc.pixKey) svc.pixKey)).length ≤ 99
        omega
      · exact absurd h3 (List.not_mem_nil p)
  · split at h1
    · rcases List.mem_cons.1 h1 with h2 | h2
      · subst h2
        refine ⟨⟨48, 50, rfl, by decide, by decide⟩, ?_⟩
        show (normalizeText desc 25).length ≤ 99
        have := normText_len desc 25
        omega
      · exact absurd h2 (List.not_mem_nil p)
    · exact absurd h1 (List.not_mem_nil p)

theorem sumLens_maiFields_le (svc : PixService) (keyOv desc : PyStr)
    (hk : (normalizePixKey (strOr (strOr keyOv svc.pixKey) svc.pixKey)).length ≤ 48) :
    sumLens (maiFields svc keyOv desc) ≤ 99 := by
  unfold maiFields sumLens
  have hgui : (pyStr ("br.gov.bcb.pix")).length = 14 := by decide
  have ht := normText_len desc 25
  split <;> simp [hgui] <;> omega

theorem adf_single_ok (txid : PyStr) :
    ∀ p ∈ [(pyStr ("05"), normalizeTxid txid 25)],
      (∃ t1 t2, p.1 = [t1, t2] ∧ isDig t1 = true ∧ isDig t2 = true) ∧
        p.2.length ≤ 99 := by
  intro p hp
  simp only [List.mem_singleton] at hp
  subst hp
  refine ⟨⟨48, 53, rfl, by decide, by decide⟩, ?_⟩
  show (normalizeTxid txid 25).length ≤ 99
  have := normTxid_le txid
  omega

theorem topFields_ok (pixKey name city : PyStr) (amount : Option ℚ)
    (desc txid keyOv : PyStr)
    (hk : (normalizePixKey (strOr (strOr keyOv pixKey) pixKey)).length ≤ 48)
    (ha : ∀ q : ℚ, amount = some q → (formatAmount q).length ≤ 99) :
    ∀ p ∈ topLevelFields (mkPixService pixKey name city) amount desc txid keyOv,
      (∃ t1 t2, p.1 = [t1, t2] ∧ isDig t1 = true ∧ isDig t2 = true) ∧
        p.2.length ≤ 99 := by
  intro p hp
  have hk' : (normalizePixKey (strOr (strOr keyOv
      (mkPixService pixKey name city).pixKey)
      (mkPixService pixKey name city).pixKey)).length ≤ 48 := hk
  have hmai : (maiValue (mkPixService pixKey name city) keyOv desc).length ≤ 99 := by
    rw [maiValue_eq_serialize]
    rw [parseFields_length _ _
      (parse_serialize _ (maiFields_ok (mkPixService pixKey name city) keyOv desc hk'))]
    exact sumLens_maiFields_le _ _ _ hk'
  have hadf : (adfValue txid).length ≤ 29 := by
    rw [adfValue_eq_serialize]
    rw [parseFields_length _ _ (parse_serialize _ (adf_single_ok txid))]
    have := normTxid_le txid
    simp [sumLens]
    omega
  have hname : (strOr (strOr (mkPixService pixKey name city).merchantName
      (mkPixService pixKey name city).merchantName) (pyStr ("PAGAMENTO"))).length ≤ 25 := by
    rw [strOr_self_or_default]
    split
    · decide
    · exact normText_len name 25
  have hcity : (strOr (strOr (mkPixService pixKey name city).merchantCity
      (mkPixService pixKey name city).merchantCity) (pyStr ("BRASIL"))).length ≤ 15 := by
    rw [strOr_self_or_default]
    split
    · decide
    · exact normText_len city 15
  unfold topLevelFields at hp
  rcases List.mem_append.1 hp with h1 | h1
  · rcases List.mem_append.1 h1 with h2 | h2
    · rcases List.mem_cons.1 h2 with h3 | h3
      · subst h3
        exact ⟨⟨48, 48, rfl, by decide, by decide⟩, by decide⟩
      rcases List.mem_cons.1 h3 with h4 | h4
      · subst h4
        refine ⟨⟨50, 54, rfl, by decide, by decide⟩, ?_⟩
        exact hmai
      rcases List.mem_cons.1 h4 with h5 | h5
      · subst h5
        exact ⟨⟨53, 50, rfl, by decide, by decide⟩, by decide⟩
      rcases List.mem_cons.1 h5 with h6 | h6
      · subst h6
        exact ⟨⟨53, 51, rfl, by decide, by decide⟩, by decide⟩
      exact absurd h6 (List.not_mem_nil p)
    · cases amount with
      | none => exact absurd h2 (List.not_mem_nil p)
      | some q =>
          dsimp only at h2
          by_cases h0 : 0 < q
          · rw [if_pos h0] at h2
            rcases List.mem_cons.1 h2 with h3 | h3
            · subst h3
              exact ⟨⟨53, 52, rfl, by decide, by decide⟩, ha q rfl⟩
            · exact absurd h3 (List.not_mem_nil p)
          · rw [if_neg h0] at h2
            exact absurd h2 (List.not_mem_nil p)
  · rcases List.mem_cons.1 h1 with h2 | h2
    · subst h2
      exact ⟨⟨53, 56, rfl, by decide, by decide⟩, by decide⟩
    rcases List.mem_cons.1 h2 with h3 | h3
    · subst h3
      refine ⟨⟨53, 57, rfl, by decide, by decide⟩, ?_⟩
      show (strOr (strOr (mkPixService pixKey name city).merchantName
        (mkPixService pixKey name city).merchantName) (pyStr ("PAGAMENTO"))).length ≤ 99
      omega
    rcases List.mem_cons.1 h3 with h4 | h4
    · subst h4
      refine ⟨⟨54, 48, rfl, by decide, by decide⟩, ?_⟩
      show (strOr (strOr (mkPixService pixKey name city).merchantCity
        (mkPixService pixKey name city).merchantCity) (pyStr ("BRASIL"))).length ≤ 99
      omega
    rcases List.mem_cons.1 h4 with h5 | h5
    · subst h5
      refine ⟨⟨54, 50, rfl, by decide, by decide⟩, ?_⟩
      show (adfValue txid).length ≤ 99
      omega
    rcases List.mem_cons.1 h5 with h6 | h6
    · subst h6
      refine ⟨⟨54, 51, rfl, by decide, by decide⟩, ?_⟩
      dsimp only
      rw [calculateCrc16_length]
      omega
    exact absurd h6 (List.not_mem_nil p)

/-- C5 (amended).  Provided the normalized pix key is at most 48 characters
(so every value, in particular the tag-26 value, fits the 2-digit length
prefix) and any supplied amount formats to at most 99 characters, the
output TLV-parses back to exactly the emitted field list, the total length
is the sum of `2 + 2 + len(value)` over the top-level fields, the nested
tag-26 and tag-62 values decompose the same way, and every field's declared
2-digit prefix equals its value's length. -/
theorem tlv_length_consistency (pixKey name city : PyStr) (amount : Option ℚ)
    (desc txid keyOv : PyStr)
    (hk : (normalizePixKey (strOr (strOr keyOv pixKey) pixKey)).length ≤ 48)
    (ha : ∀ q : ℚ, amount = some q → (formatAmount q).length ≤ 99) :
    parseFields (generatePixCode (mkPixService pixKey name city) amount desc txid keyOv) =
      some (topLevelFields (mkPixService pixKey name city) amount desc txid keyOv) ∧
    (generatePixCode (mkPixService pixKey name city) amount desc txid keyOv).length =
      sumLens (topLevelFields (mkPixService pixKey name city) amount desc txid keyOv) ∧
    parseFields (maiValue (mkPixService pixKey name city) keyOv desc) =
      some (maiFields (mkPixService pixKey name city) keyOv desc) ∧
    (maiValue (mkPixService pixKey name city) keyOv desc).length =
      sumLens (maiFields (mkPixService pixKey name city) keyOv desc) ∧
    parseFields (adfValue txid) = some [(pyStr ("05"), normalizeTxid txid 25)] ∧
    (adfValue txid).length = 4 + (normalizeTxid txid 25).length ∧
    ∀ p ∈ topLevelFields (mkPixService pixKey name city) amount desc txid keyOv,
      p.2.length ≤ 99 := by
  have hok := topFields_ok pixKey name city amount desc txid keyOv hk ha
  have htop_parse := parse_serialize _ hok
  rw [← gen_serialize] at htop_parse
  have htop_len := parseFields_length _ _ htop_parse
  have hk' : (normalizePixKey (strOr (strOr keyOv
      (mkPixService pixKey name city).pixKey)
      (mkPixService pixKey name city).pixKey)).length ≤ 48 := hk
  have hmai_parse : parseFields (maiValue (mkPixService pixKey name city) keyOv desc) =
      some (maiFields (mkPixService pixKey name city) keyOv desc) := by
    rw [maiValue_eq_serialize]
    exact parse_serialize _ (maiFields_ok _ keyOv desc hk')
  have hmai_len := parseFields_length _ _ hmai_parse
  have hadf_parse : parseFields (adfValue txid) =
      some [(pyStr ("05"), normalizeTxid txid 25)] := by
    rw [adfValue_eq_serialize]
    exact parse_serialize _ (adf_single_ok txid)
  have hadf_len := parseFields_length _ _ hadf_parse
  refine ⟨htop_parse, htop_len, hmai_parse, hmai_len, hadf_parse, ?_, fun p hp => (hok p hp).2⟩
  rw [hadf_len]
  simp [sumLens]

set_option maxHeartbeats 12000000 in
/-- Counterexample to C5 as stated: with a 100-character pix key the tag-26
value has 123 characters, its 2-digit length prefix cannot match, the total
length is not the sum of `2 + 2 + len(value)`, and the output no longer
parses as 2-digit TLV. -/
theorem tlv_length_ce :
    (generatePixCode (mkPixService (List.replicate 100 97) [] []) none [] [] []).length ≠
      sumLens (topLevelFields (mkPixService (List.replicate 100 97) [] []) none [] [] []) ∧
    parseFields (generatePixCode (mkPixService (List.replicate 100 97) [] [])
      none [] [] []) = none := by
  constructor <;> decide

set_option maxHeartbeats 12000000 in
/-- Witness for C5 (amended) on the spec's scenario-5 inputs. -/
theorem tlv_length_witness :
    (normalizePixKey (strOr (strOr [] (pyStr ("test@example.com")))
      (pyStr ("test@example.com")))).length ≤ 48 ∧
    parseFields (generatePixCode
        (mkPixService (pyStr ("test@example.com")) (pyStr ("LOJA TESTE"))
          (pyStr ("SAO PAULO"))) none (pyStr ("Mensalidade")) (pyStr ("ABC123")) []) =
      some (topLevelFields
        (mkPixService (pyStr ("test@example.com")) (pyStr ("LOJA TESTE"))
          (pyStr ("SAO PAULO"))) none (pyStr ("Mensalidade")) (pyStr ("ABC123")) []) :=
  ⟨by decide,
   (tlv_length_consistency (pyStr ("test@example.com")) (pyStr ("LOJA TESTE"))
     (pyStr ("SAO PAULO")) none (pyStr ("Mensalidade")) (pyStr ("ABC123")) []
     (by decide) (fun q hq => Option.noConfusion hq)).1⟩

/-! ### Character-class and strip toolkit -/

theorem isHexC_not_sp (c : Nat) (h : isHexC c = true) : isSp c = false := by
  simp only [isHexC, decide_eq_true_eq] at h
  simp only [isSp, decide_eq_false_iff_not]
  omega

theorem isDig_isHexC (c : Nat) (h : isDig c = true) : isHexC c = true := by
  simp only [isDig, decide_eq_true_eq] at h
  simp only [isHexC, decide_eq_true_eq]
  omega

theorem isDig_not_sp (c : Nat) (h : isDig c = true) : isSp c = false := by
  simp only [isDig, decide_eq_true_eq] at h
  simp only [isSp, decide_eq_false_iff_not]
  omega

theorem dropWhile_eq_self_of_all {p : Nat → Bool} (l : PyStr)
    (h : ∀ c ∈ l, p c = false) : l.dropWhile p = l := by
  cases l with
  | nil => rfl
  | cons a t =>
      rw [List.dropWhile_cons]
      rw [h a (List.mem_cons_self a t)]
      simp

theorem pyStrip_eq_self_of_all (l : PyStr) (h : ∀ c ∈ l, isSp c = false) :
    pyStrip l = l := by
  unfold pyStrip
  rw [dropWhile_eq_self_of_all l h]
  rw [dropWhile_eq_self_of_all l.reverse (fun c hc => h c (List.mem_reverse.1 hc))]
  exact List.reverse_reverse l

theorem uuidMatch_of_length_ne (l : PyStr) (h : l.length ≠ 36) :
    uuidMatch l = false := by
  unfold uuidMatch
  simp [h]

/-- C8.  32-hex random-key reformatting: a key that is exactly 32
hexadecimal characters (and hence not a full UUID pattern) is normalized by
re-inserting hyphens after positions 8, 12, 16 and 20 and lowercasing. -/
theorem hex32_reformat (key : PyStr) (hlen : key.length = 32)
    (hhex : ∀ c ∈ key, isHexC c = true) :
    normalizePixKey key = (insertHyphens key).map toLowerN := by
  have hne : key ≠ [] := by
    intro h
    rw [h] at hlen
    simp at hlen
  have hns : ∀ c ∈ key, isSp c = false := fun c hc => isHexC_not_sp c (hhex c hc)
  have hstrip : pyStrip key = key := pyStrip_eq_self_of_all key hns
  have h64 : 64 ∉ key := by
    intro hmem
    have := hhex 64 hmem
    simp [isHexC] at this
  have huuid : uuidMatch key = false :=
    uuidMatch_of_length_ne key (by omega)
  have hfilter : key.filter isHexC = key :=
    List.filter_eq_self.2 hhex
  have hall : key.all isHexC = true := List.all_eq_true.2 hhex
  unfold normalizePixKey
  rw [if_neg hne]
  dsimp only
  rw [hstrip]
  rw [if_neg h64]
  rw [if_neg (by simp [huuid])]
  rw [hfilter]
  rw [if_pos ⟨hlen, hne, hall⟩]

/-- Witness for C8 on the spec's scenario-3 key. -/
theorem hex32_reformat_witness :
    (pyStr ("a1b2c3d4e5f6a1b2c3d4e5f6a1b2c3d4")).length = 32 ∧
    (∀ c ∈ pyStr ("a1b2c3d4e5f6a1b2c3d4e5f6a1b2c3d4"), isHexC c = true) ∧
    normalizePixKey (pyStr ("a1b2c3d4e5f6a1b2c3d4e5f6a1b2c3d4")) =
      pyStr ("a1b2c3d4-e5f6-a1b2-c3d4-e5f6a1b2c3d4") :=
  ⟨by decide, by decide,
   (hex32_reformat (pyStr ("a1b2c3d4e5f6a1b2c3d4e5f6a1b2c3d4")) (by decide)
     (by decide)).trans (by decide)⟩

/-- C7 (amended).  Tie-break on 11-digit keys, for keys on which no earlier
classifier rule fires (no `@`, not a UUID, not the 32-hex shape, not a
formatted CPF, not a CNPJ pattern, no leading `+`, no parentheses): if the
digits have the mobile shape (digit `9` at index 2 and first two digits
between 11 and 99) the key is classified as a phone and normalized to
`"+55"` plus the digits; otherwise it falls through to the bare-CPF rule
and the 11 digits are returned. -/
theorem phone_cpf_tiebreak (key : PyStr)
    (h1 : 64 ∉ pyStrip key)
    (h2 : uuidMatch (pyStrip key) = false)
    (h3 : ¬(((pyStrip key).filter isHexC).length = 32 ∧ pyStrip key ≠ [] ∧
      (pyStrip key).all isHexC = true))
    (h4 : cpfMatch (pyStrip key) = false)
    (h5 : cnpjMatch (pyStrip key) = false)
    (h6 : (pyStrip key).head? ≠ some 43)
    (h7a : 40 ∉ pyStrip key) (h7b : 41 ∉ pyStrip key)
    (hd : ((pyStrip key).filter isDig).length = 11) :
    (((pyStrip key).filter isDig).get? 2 = some 57 ∧
        11 ≤ firstTwoVal ((pyStrip key).filter isDig) ∧
        firstTwoVal ((pyStrip key).filter isDig) ≤ 99 →
      normalizePixKey key = pyStr ("+55") ++ (pyStrip key).filter isDig) ∧
    (¬(((pyStrip key).filter isDig).get? 2 = some 57 ∧
        11 ≤ firstTwoVal ((pyStrip key).filter isDig) ∧
        firstTwoVal ((pyStrip key).filter isDig) ≤ 99) →
      normalizePixKey key = (pyStrip key).filter isDig) := by
  have hne : key ≠ [] := by
    intro h
    rw [h] at hd
    simp [pyStrip] at hd
  unfold normalizePixKey
  rw [if_neg hne]
  dsimp only
  rw [if_neg h1]
  rw [if_neg (by simp [h2])]
  rw [if_neg h3]
  rw [if_neg (by simp [h4])]
  rw [if_neg (by simp [h5])]
  constructor
  · intro hmob
    rw [if_pos ⟨Or.inr (Or.inr (Or.inr (Or.inl ⟨hd, hmob.1, hmob.2.1, hmob.2.2⟩))),
      by intro he; rw [he] at hd; simp at hd⟩]
    rw [if_neg (by
      rintro (hp | ⟨_, h12⟩)
      · exact h6 hp
      · omega)]
    rw [if_pos hd]
    rfl
  · intro hnmob
    rw [if_neg (by
      rintro ⟨hph, _⟩
      rcases hph with hp | hp | ⟨_, h12⟩ | hbr
      · exact h6 hp
      · rcases hp with hp | hp
        · exact h7a hp
        · exact h7b hp
      · omega
      · rcases hbr with ⟨_, hsh⟩ | ⟨h10, _⟩
        · exact hnmob hsh
        · omega)]
    rw [if_neg (by omega)]
    rw [if_pos hd]

/-- Counterexample to C7 as stated: the key `"119.876.543-21"` has exactly
11 digits with the mobile shape, yet the formatted-CPF rule fires first and
the normalizer returns the bare digits, not `"+55"` plus the digits. -/
theorem phone_cpf_tiebreak_ce :
    ((pyStrip (pyStr ("119.876.543-21"))).filter isDig).length = 11 ∧
    ((pyStrip (pyStr ("119.876.543-21"))).filter isDig).get? 2 = some 57 ∧
    11 ≤ firstTwoVal ((pyStrip (pyStr ("119.876.543-21"))).filter isDig) ∧
    firstTwoVal ((pyStrip (pyStr ("119.876.543-21"))).filter isDig) ≤ 99 ∧
    normalizePixKey (pyStr ("119.876.543-21")) ≠
      pyStr ("+55") ++ (pyStrip (pyStr ("119.876.543-21"))).filter isDig ∧
    normalizePixKey (pyStr ("119.876.543-21")) =
      (pyStrip (pyStr ("119.876.543-21"))).filter isDig := by decide

/-- Witness for C7 (amended) on the spec's scenario-1 key. -/
theorem phone_cpf_tiebreak_witness :
    ((pyStrip (pyStr ("11987654321"))).filter isDig).length = 11 ∧
    normalizePixKey (pyStr ("11987654321")) = pyStr ("+5511987654321") :=
  ⟨by decide,
   ((phone_cpf_tiebreak (pyStr ("11987654321")) (by decide) (by decide) (by decide)
      (by decide) (by decide) (by decide) (by decide) (by decide) (by decide)).1
     ⟨by decide, by decide, by decide⟩).trans (by decide)⟩

/-! ### Case-map and strip lemmas for idempotence -/

theorem toLowerN_idem (c : Nat) : toLowerN (toLowerN c) = toLowerN c := by
  unfold toLowerN
  split
  · rw [if_neg (by omega)]
  · rfl

theorem isSp_toLowerN (c : Nat) : isSp (toLowerN c) = isSp c := by
  unfold toLowerN
  split
  · rename_i h
    simp only [isSp, decide_eq_decide]
    omega
  · rfl

theorem toLowerN_eq_64 (c : Nat) : toLowerN c = 64 ↔ c = 64 := by
  unfold toLowerN
  split <;> omega

theorem isHexC_toLowerN (c : Nat) (h : isHexC c = true) : isHexC (toLowerN c) = true := by
  simp only [isHexC, decide_eq_true_eq] at h ⊢
  unfold toLowerN
  split <;> omega

theorem isDig_toLowerN (c : Nat) (h : isDig c = true) : toLowerN c = c := by
  simp only [isDig, decide_eq_true_eq] at h
  unfold toLowerN
  rw [if_neg (by omega)]

theorem map_toLowerN_idem (l : PyStr) : (l.map toLowerN).map toLowerN = l.map toLowerN := by
  rw [List.map_map]
  exact List.map_congr_left fun c _ => toLowerN_idem c

theorem dropWhile_head_not {p : Nat → Bool} :
    ∀ (l : PyStr) (c : Nat), (l.dropWhile p).head? = some c → p c = false := by
  intro l
  induction l with
  | nil => intro c h; simp [List.dropWhile] at h
  | cons a t ih =>
      intro c h
      rw [List.dropWhile_cons] at h
      by_cases hp : p a = true
      · rw [if_pos hp] at h
        exact ih c h
      · rw [if_neg hp] at h
        simp only [List.head?_cons, Option.some_inj] at h
        subst h
        simpa using hp

theorem dropWhile_eq_self_of_head {p : Nat → Bool} (l : PyStr)
    (h : ∀ c, l.head? = some c → p c = false) : l.dropWhile p = l := by
  cases l with
  | nil => rfl
  | cons a t =>
      rw [List.dropWhile_cons, h a rfl]
      simp

theorem getLast?_dropWhile {p : Nat → Bool} :
    ∀ l : PyStr, l.dropWhile p = [] ∨ (l.dropWhile p).getLast? = l.getLast? := by
  intro l
  induction l with
  | nil => exact Or.inl rfl
  | cons a t ih =>
      rw [List.dropWhile_cons]
      by_cases hp : p a = true
      · rw [if_pos hp]
        rcases ih with h | h
        · exact Or.inl h
        · cases t with
          | nil => exact Or.inl (by simpa using h)
          | cons b u =>
              right
              rw [h, List.getLast?_cons_cons]
      · rw [if_neg hp]
        exact Or.inr rfl

theorem pyStrip_last_not (l : PyStr) (c : Nat) (h : (pyStrip l).getLast? = some c) :
    isSp c = false := by
  unfold pyStrip at h
  rw [List.getLast?_reverse] at h
  exact dropWhile_head_not _ c h

theorem pyStrip_head_not (l : PyStr) (c : Nat) (h : (pyStrip l).head? = some c) :
    isSp c = false := by
  unfold pyStrip at h
  rw [List.head?_reverse] at h
  rcases getLast?_dropWhile ((l.dropWhile isSp).reverse) with he | he
  · rw [he] at h
    simp at h
  · rw [he, List.getLast?_reverse] at h
    exact dropWhile_head_not _ c h

theorem pyStrip_eq_self_of_ends (l : PyStr)
    (h1 : ∀ c, l.head? = some c → isSp c = false)
    (h2 : ∀ c, l.getLast? = some c → isSp c = false) : pyStrip l = l := by
  unfold pyStrip
  rw [dropWhile_eq_self_of_head l h1]
  rw [dropWhile_eq_self_of_head l.reverse (fun c hc => h2 c (by rwa [List.head?_reverse] at hc))]
  exact List.reverse_reverse l

theorem pyStrip_idem (l : PyStr) : pyStrip (pyStrip l) = pyStrip l :=
  pyStrip_eq_self_of_ends (pyStrip l) (pyStrip_head_not l) (pyStrip_last_not l)

theorem dropWhile_map (f : Nat → Nat) (p : Nat → Bool) :
    ∀ l : PyStr, (l.map f).dropWhile p = (l.dropWhile (fun c => p (f c))).map f := by
  intro l
  induction l with
  | nil => rfl
  | cons a t ih =>
      simp only [List.map_cons, List.dropWhile_cons]
      by_cases hp : p (f a) = true
      · rw [if_pos hp, if_pos hp]
        exact ih
      · rw [if_neg hp, if_neg hp]
        rfl

theorem pyStrip_map_toLowerN (l : PyStr) :
    pyStrip (l.map toLowerN) = (pyStrip l).map toLowerN := by
  have hcongr : ∀ m : PyStr, m.dropWhile (fun c => isSp (toLowerN c)) = m.dropWhile isSp := by
    intro m
    congr 1
    funext c
    exact isSp_toLowerN c
  unfold pyStrip
  rw [dropWhile_map, hcongr, ← List.map_reverse, dropWhile_map, hcongr, ← List.map_reverse]

/-! ### UUID-shape lemmas -/

theorem get?_eq_head?_drop : ∀ (l : PyStr) (n : Nat), l.get? n = (l.drop n).head? := by
  intro l
  induction l with
  | nil => intro n; cases n <;> rfl
  | cons a t ih =>
      intro n
      cases n with
      | zero => rfl
      | succ n =>
          rw [List.get?_cons_succ, List.drop_succ_cons]
          exact ih n

theorem drop_eq_cons_of_get? (l : PyStr) (n a : Nat) (h : l.get? n = some a) :
    l.drop n = a :: l.drop (n + 1) := by
  induction l generalizing n with
  | nil => simp at h
  | cons b t ih =>
      cases n with
      | zero =>
          simp only [List.get?_cons_zero, Option.some_inj] at h
          subst h
          rfl
      | succ n =>
          rw [List.get?_cons_succ] at h
          rw [List.drop_succ_cons, List.drop_succ_cons]
          exact ih n h

theorem uuid_chars (l : PyStr) (h : uuidMatch l = true) :
    ∀ c ∈ l, isHexC c = true ∨ c = 45 := by
  unfold uuidMatch at h
  simp only [Bool.and_eq_true, decide_eq_true_eq] at h
  obtain ⟨⟨⟨⟨⟨⟨⟨⟨⟨hlen, h8⟩, hg8⟩, h12⟩, hg13⟩, h16⟩, hg18⟩, h20⟩, hg23⟩, h24⟩ := h
  intro c hc
  have hsplit0 : c ∈ l.take 8 ∨ c ∈ l.drop 8 := by
    rw [← List.take_append_drop 8 l] at hc
    exact List.mem_append.1 hc
  rcases hsplit0 with hm | hm
  · exact Or.inl (List.all_eq_true.1 h8 c hm)
  rw [drop_eq_cons_of_get? l 8 45 hg8] at hm
  rcases List.mem_cons.1 hm with hm | hm
  · exact Or.inr hm
  have hsplit1 : c ∈ (l.drop 9).take 4 ∨ c ∈ (l.drop 9).drop 4 := by
    rw [← List.take_append_drop 4 (l.drop 9)] at hm
    exact List.mem_append.1 hm
  rcases hsplit1 with hm1 | hm1
  · exact Or.inl (List.all_eq_true.1 h12 c hm1)
  rw [List.drop_drop] at hm1
  rw [show 4 + 9 = 13 from rfl] at hm1
  rw [drop_eq_cons_of_get? l 13 45 hg13] at hm1
  rcases List.mem_cons.1 hm1 with hm1 | hm1
  · exact Or.inr hm1
  have hsplit2 : c ∈ (l.drop 14).take 4 ∨ c ∈ (l.drop 14).drop 4 := by
    rw [← List.take_append_drop 4 (l.drop 14)] at hm1
    exact List.mem_append.1 hm1
  rcases hsplit2 with hm2 | hm2
  · exact Or.inl (List.all_eq_true.1 h16 c hm2)
  rw [List.drop_drop] at hm2
  rw [show 4 + 14 = 18 from rfl] at hm2
  rw [drop_eq_cons_of_get? l 18 45 hg18] at hm2
  rcases List.mem_cons.1 hm2 with hm2 | hm2
  · exact Or.inr hm2
  have hsplit3 : c ∈ (l.drop 19).take 4 ∨ c ∈ (l.drop 19).drop 4 := by
    rw [← List.take_append_drop 4 (l.drop 19)] at hm2
    exact List.mem_append.1 hm2
  rcases hsplit3 with hm3 | hm3
  · exact Or.inl (List.all_eq_true.1 h20 c hm3)
  rw [List.drop_drop] at hm3
  rw [show 4 + 19 = 23 from rfl] at hm3
  rw [drop_eq_cons_of_get? l 23 45 hg23] at hm3
  rcases List.mem_cons.1 hm3 with hm3 | hm3
  · exact Or.inr hm3
  exact Or.inl (List.all_eq_true.1 h24 c hm3)

theorem all_isHexC_map_toLowerN (l : PyStr) (h : l.all isHexC = true) :
    (l.map toLowerN).all isHexC = true := by
  rw [List.all_map]
  exact List.all_eq_true.2 fun c hc =>
    isHexC_toLowerN c (List.all_eq_true.1 h c hc)

theorem uuidMatch_map_toLowerN (l : PyStr) (h : uuidMatch l = true) :
    uuidMatch (l.map toLowerN) = true := by
  unfold uuidMatch at h ⊢
  simp only [Bool.and_eq_true, decide_eq_true_eq] at h ⊢
  obtain ⟨⟨⟨⟨⟨⟨⟨⟨⟨hlen, h8⟩, hg8⟩, h12⟩, hg13⟩, h16⟩, hg18⟩, h20⟩, hg23⟩, h24⟩ := h
  have hget : ∀ n, l.get? n = some 45 → (l.map toLowerN).get? n = some 45 := by
    intro n hn
    rw [List.get?_map, hn]
    rfl
  refine ⟨⟨⟨⟨⟨⟨⟨⟨⟨by simpa using hlen, ?_⟩, hget 8 hg8⟩, ?_⟩, hget 13 hg13⟩, ?_⟩,
    hget 18 hg18⟩, ?_⟩, hget 23 hg23⟩, ?_⟩
  · rw [← List.map_take]
    exact all_isHexC_map_toLowerN _ h8
  · rw [← List.map_drop, ← List.map_take]
    exact all_isHexC_map_toLowerN _ h12
  · rw [← List.map_drop, ← List.map_take]
    exact all_isHexC_map_toLowerN _ h16
  · rw [← List.map_drop, ← List.map_take]
    exact all_isHexC_map_toLowerN _ h20
  · rw [← List.map_drop]
    exact all_isHexC_map_toLowerN _ h24

theorem take_append_len (A B : PyStr) (n : Nat) (h : A.length = n) :
    (A ++ B).take n = A := by
  subst h
  exact List.take_left A B

theorem drop_append_len (A B : PyStr) (n : Nat) (h : A.length = n) :
    (A ++ B).drop n = B := by
  subst h
  exact List.drop_left A B

theorem all_of_sublist (p : Nat → Bool) (l m : PyStr) (hs : List.Sublist m l)
    (h : l.all p = true) : m.all p = true :=
  List.all_eq_true.2 fun c hc => List.all_eq_true.1 h c (hs.subset hc)

theorem uuidMatch_insertHyphens (k : PyStr) (hlen : k.length = 32)
    (hall : k.all isHexC = true) : uuidMatch (insertHyphens k) = true := by
  have h8 : (k.take 8).length = 8 := by rw [List.length_take]; omega
  have h2 : ((k.drop 8).take 4).length = 4 := by
    rw [List.length_take, List.length_drop]; omega
  have h3 : ((k.drop 12).take 4).length = 4 := by
    rw [List.length_take, List.length_drop]; omega
  have h4 : ((k.drop 16).take 4).length = 4 := by
    rw [List.length_take, List.length_drop]; omega
  have h5 : (k.drop 20).length = 12 := by rw [List.length_drop]; omega
  have e9 : insertHyphens k =
      (k.take 8 ++ [45]) ++ ((k.drop 8).take 4 ++ (45 :: ((k.drop 12).take 4 ++
        (45 :: ((k.drop 16).take 4 ++ (45 :: k.drop 20)))))) := by
    unfold insertHyphens
    simp [List.append_assoc]
  have e14 : insertHyphens k =
      (k.take 8 ++ 45 :: ((k.drop 8).take 4) ++ [45]) ++ ((k.drop 12).take 4 ++
        (45 :: ((k.drop 16).take 4 ++ (45 :: k.drop 20)))) := by
    unfold insertHyphens
    simp [List.append_assoc]
  have e19 : insertHyphens k =
      (k.take 8 ++ 45 :: ((k.drop 8).take 4) ++ 45 :: ((k.drop 12).take 4) ++ [45]) ++
        ((k.drop 16).take 4 ++ (45 :: k.drop 20)) := by
    unfold insertHyphens
    simp [List.append_assoc]
  have e24 : insertHyphens k =
      (k.take 8 ++ 45 :: ((k.drop 8).take 4) ++ 45 :: ((k.drop 12).take 4) ++
        45 :: ((k.drop 16).take 4) ++ [45]) ++ k.drop 20 := by
    unfold insertHyphens
    simp [List.append_assoc]
  have hL : (insertHyphens k).length = 36 := by
    unfold insertHyphens
    simp only [List.length_append, List.length_cons, h8, h2, h3, h4, h5]
  unfold uuidMatch
  simp only [Bool.and_eq_true, decide_eq_true_eq]
  have e0 : insertHyphens k = k.take 8 ++ (45 :: ((k.drop 8).take 4 ++
      (45 :: ((k.drop 12).take 4 ++ (45 :: ((k.drop 16).take 4 ++
        (45 :: k.drop 20))))))) := by
    unfold insertHyphens
    simp [List.append_assoc]
  have hT8 : (insertHyphens k).take 8 = k.take 8 := by
    rw [e0]
    exact take_append_len _ _ 8 h8
  have hD9 : (insertHyphens k).drop 9 = (k.drop 8).take 4 ++ (45 :: ((k.drop 12).take 4 ++
      (45 :: ((k.drop 16).take 4 ++ (45 :: k.drop 20))))) := by
    rw [e9, drop_append_len _ _ 9 (by simp [h8])]
  have hD14 : (insertHyphens k).drop 14 = (k.drop 12).take 4 ++
      (45 :: ((k.drop 16).take 4 ++ (45 :: k.drop 20))) := by
    rw [e14, drop_append_len _ _ 14 (by simp [h8, h2])]
  have hD19 : (insertHyphens k).drop 19 = (k.drop 16).take 4 ++ (45 :: k.drop 20) := by
    rw [e19, drop_append_len _ _ 19 (by simp [h8, h2, h3])]
  have hD24 : (insertHyphens k).drop 24 = k.drop 20 := by
    rw [e24, drop_append_len _ _ 24 (by simp [h8, h2, h3, h4])]
  have hg8 : (insertHyphens k).get? 8 = some 45 := by
    rw [get?_eq_head?_drop, e0, drop_append_len _ _ 8 h8]
    simp
  have e13 : insertHyphens k =
      (k.take 8 ++ 45 :: ((k.drop 8).take 4)) ++
        (45 :: (((k.drop 12).take 4) ++ 45 :: ((k.drop 16).take 4) ++
          45 :: k.drop 20)) := by
    unfold insertHyphens
    simp [List.append_assoc]
  have e18 : insertHyphens k =
      (k.take 8 ++ 45 :: ((k.drop 8).take 4) ++ 45 :: ((k.drop 12).take 4)) ++
        (45 :: (((k.drop 16).take 4) ++ 45 :: k.drop 20)) := by
    unfold insertHyphens
    simp [List.append_assoc]
  have e23 : insertHyphens k =
      (k.take 8 ++ 45 :: ((k.drop 8).take 4) ++ 45 :: ((k.drop 12).take 4) ++
        45 :: ((k.drop 16).take 4)) ++ (45 :: k.drop 20) := by
    unfold insertHyphens
    simp [List.append_assoc]
  have hg13 : (insertHyphens k).get? 13 = some 45 := by
    rw [get?_eq_head?_drop, e13, drop_append_len _ _ 13 (by simp [h8, h2])]
    simp
  have hg18 : (insertHyphens k).get? 18 = some 45 := by
    rw [get?_eq_head?_drop, e18, drop_append_len _ _ 18 (by simp [h8, h2, h3])]
    simp
  have hg23 : (insertHyphens k).get? 23 = some 45 := by
    rw [get?_eq_head?_drop, e23, drop_append_len _ _ 23 (by simp [h8, h2, h3, h4])]
    simp
  refine ⟨⟨⟨⟨⟨⟨⟨⟨⟨hL, ?_⟩, hg8⟩, ?_⟩, hg13⟩, ?_⟩, hg18⟩, ?_⟩, hg23⟩, ?_⟩
  · rw [hT8]
    exact all_of_sublist _ k _ (List.take_sublist 8 k) hall
  · rw [hD9, take_append_len _ _ 4 h2]
    exact all_of_sublist _ k _ ((List.take_sublist 4 _).trans (List.drop_sublist 8 k)) hall
  · rw [hD14, take_append_len _ _ 4 h3]
    exact all_of_sublist _ k _ ((List.take_sublist 4 _).trans (List.drop_sublist 12 k)) hall
  · rw [hD19, take_append_len _ _ 4 h4]
    exact all_of_sublist _ k _ ((List.take_sublist 4 _).trans (List.drop_sublist 16 k)) hall
  · rw [hD24]
    exact all_of_sublist _ k _ (List.drop_sublist 20 k) hall

/-! ### Classifier behaviour on digit strings and normalized outputs -/

theorem mem_of_head? (l : PyStr) (c : Nat) (h : l.head? = some c) : c ∈ l := by
  cases l with
  | nil => simp at h
  | cons a t =>
      simp only [List.head?_cons, Option.some_inj] at h
      subst h
      exact List.mem_cons_self a t

theorem eatD_all (l : PyStr) (hall : ∀ c ∈ l, isDig c = true) :
    ∀ n, n ≤ l.length → eatD n l = some (l.drop n) := by
  induction l with
  | nil =>
      intro n hn
      simp only [List.length_nil, Nat.le_zero] at hn
      subst hn
      rfl
  | cons a t ih =>
      intro n hn
      cases n with
      | zero => rfl
      | succ n =>
          show (if isDig a then eatD n t else none) = _
          rw [hall a (List.mem_cons_self a t)]
          rw [if_pos rfl]
          rw [ih (fun c hc => hall c (List.mem_cons_of_mem a hc)) n (by simpa using hn)]
          rfl

theorem eatD_none : ∀ (n : Nat) (l : PyStr), l.length < n → eatD n l = none := by
  intro n
  induction n with
  | zero => intro l h; omega
  | succ n ih =>
      intro l h
      cases l with
      | nil => rfl
      | cons a t =>
          show (if isDig a then eatD n t else none) = none
          split
          · exact ih t (by simpa using h)
          · rfl

theorem eatO_digits (x : Nat) (hx : isDig x = false) (l : PyStr)
    (hall : ∀ c ∈ l, isDig c = true) : eatO x l = l := by
  cases l with
  | nil => rfl
  | cons a t =>
      show (if a = x then t else a :: t) = a :: t
      rw [if_neg]
      intro he
      subst he
      rw [hall a (List.mem_cons_self a t)] at hx
      exact Bool.noConfusion hx

theorem all_drop_digits (l : PyStr) (hall : ∀ c ∈ l, isDig c = true) (n : Nat) :
    ∀ c ∈ l.drop n, isDig c = true :=
  fun c hc => hall c (List.mem_of_mem_drop hc)

theorem cnpjMatch_digits14 (l : PyStr) (hall : ∀ c ∈ l, isDig c = true)
    (h14 : l.length = 14) : cnpjMatch l = true := by
  unfold cnpjMatch
  rw [eatD_all l hall 2 (by omega)]
  dsimp only
  rw [eatO_digits 46 (by decide) _ (all_drop_digits l hall 2)]
  rw [eatD_all _ (all_drop_digits l hall 2) 3 (by simp [List.length_drop]; omega)]
  dsimp only
  rw [List.drop_drop]
  rw [eatO_digits 46 (by decide) _ (all_drop_digits l hall (3 + 2))]
  rw [eatD_all _ (all_drop_digits l hall (3 + 2)) 3 (by simp [List.length_drop]; omega)]
  dsimp only
  rw [List.drop_drop]
  rw [eatO_digits 47 (by decide) _ (all_drop_digits l hall (3 + (3 + 2)))]
  rw [eatD_all _ (all_drop_digits l hall (3 + (3 + 2))) 4 (by simp [List.length_drop]; omega)]
  dsimp only
  rw [List.drop_drop]
  rw [eatO_digits 45 (by decide) _ (all_drop_digits l hall (4 + (3 + (3 + 2))))]
  rw [eatD_all _ (all_drop_digits l hall (4 + (3 + (3 + 2)))) 2 (by simp [List.length_drop]; omega)]
  dsimp only
  rw [List.drop_drop]
  have : l.drop (2 + (4 + (3 + (3 + 2)))) = [] := by
    apply List.eq_nil_of_length_eq_zero
    simp [List.length_drop]
    omega
  rw [this]
  rfl

theorem cnpjMatch_digits11 (l : PyStr) (hall : ∀ c ∈ l, isDig c = true)
    (h11 : l.length = 11) : cnpjMatch l = false := by
  unfold cnpjMatch
  rw [eatD_all l hall 2 (by omega)]
  dsimp only
  rw [eatO_digits 46 (by decide) _ (all_drop_digits l hall 2)]
  rw [eatD_all _ (all_drop_digits l hall 2) 3 (by simp [List.length_drop]; omega)]
  dsimp only
  rw [List.drop_drop]
  rw [eatO_digits 46 (by decide) _ (all_drop_digits l hall (3 + 2))]
  rw [eatD_all _ (all_drop_digits l hall (3 + 2)) 3 (by simp [List.length_drop]; omega)]
  dsimp only
  rw [List.drop_drop]
  rw [eatO_digits 47 (by decide) _ (all_drop_digits l hall (3 + (3 + 2)))]
  rw [eatD_none 4 _ (by simp [List.length_drop]; omega)]

theorem cpfMatch_mem_dot (l : PyStr) (h : cpfMatch l = true) : 46 ∈ l := by
  unfold cpfMatch at h
  split at h
  · simp only [Bool.and_eq_true, decide_eq_true_eq] at h
    obtain ⟨⟨⟨⟨⟨⟨⟨⟨⟨⟨⟨⟨⟨h1, h2⟩, h3⟩, h4⟩, h5⟩, h6⟩, h7⟩, h8⟩, h9⟩, h10⟩, h11⟩,
      h12⟩, h13⟩, h14⟩ := h
    subst h4
    simp
  · exact Bool.noConfusion h

theorem cpfMatch_digits (l : PyStr) (hall : ∀ c ∈ l, isDig c = true) :
    cpfMatch l = false := by
  cases hm : cpfMatch l with
  | false => rfl
  | true =>
      exfalso
      have := hall 46 (cpfMatch_mem_dot l hm)
      simp [isDig] at this

theorem cpfMatch_head_not_digit (c : Nat) (hc : isDig c = false) (d : PyStr) :
    cpfMatch (c :: d) = false := by
  cases hm : cpfMatch (c :: d) with
  | false => rfl
  | true =>
      exfalso
      unfold cpfMatch at hm
      split at hm
      · rename_i a b c2 p e f g q h1 i j r k2 m heq
        simp only [Bool.and_eq_true, decide_eq_true_eq] at hm
        have ha : isDig a = true := hm.1.1.1.1.1.1.1.1.1.1.1.1.1
        have h2 : c = a := by
          have h3 := congrArg List.head? heq
          simpa using h3
        rw [h2] at hc
        rw [ha] at hc
        exact Bool.noConfusion hc
      · exact Bool.noConfusion hm

/-! ### Second-pass stability of each key-normalizer output shape -/

theorem uuidMatch_head_not_hex (c : Nat) (hc : isHexC c = false) (d : PyStr) :
    uuidMatch (c :: d) = false := by
  unfold uuidMatch
  rw [List.take_succ_cons, List.all_cons, hc]
  simp

theorem cnpjMatch_head_not_digit (c : Nat) (hc : isDig c = false) (d : PyStr) :
    cnpjMatch (c :: d) = false := by
  have h1 : eatD 2 (c :: d) = none := by
    simp [eatD, hc]
  unfold cnpjMatch
  rw [h1]

theorem normKey_plus (d : PyStr) (hd : ∀ c ∈ d, isDig c = true) (hne : d ≠ []) :
    normalizePixKey (43 :: d) = 43 :: d := by
  have hsp : ∀ c ∈ (43 :: d), isSp c = false := by
    intro c hc
    rcases List.mem_cons.1 hc with h | h
    · subst h; decide
    · exact isDig_not_sp c (hd c h)
  have hstrip : pyStrip (43 :: d) = 43 :: d := pyStrip_eq_self_of_all _ hsp
  have h64 : 64 ∉ (43 :: d) := by
    intro hm
    rcases List.mem_cons.1 hm with h | h
    · omega
    · have := hd 64 h
      simp [isDig] at this
  have hfd : (43 :: d).filter isDig = d := by
    have h43 : isDig 43 = false := by decide
    simp [List.filter_cons, h43, List.filter_eq_self.2 hd]
  unfold normalizePixKey
  rw [if_neg (by simp : ¬((43 : Nat) :: d = []))]
  dsimp only
  rw [hstrip]
  rw [if_neg h64]
  rw [if_neg (by simp [uuidMatch_head_not_hex 43 (by decide) d])]
  rw [if_neg (by
    rintro ⟨_, _, hall⟩
    have := List.all_eq_true.1 hall 43 (List.mem_cons_self 43 d)
    simp [isHexC] at this)]
  rw [hfd]
  rw [if_neg (by
    rintro ⟨hc, _⟩
    rw [cpfMatch_head_not_digit 43 (by decide) d] at hc
    exact Bool.noConfusion hc)]
  rw [if_neg (by
    rintro ⟨hc, _⟩
    rw [cnpjMatch_head_not_digit 43 (by decide) d] at hc
    exact Bool.noConfusion hc)]
  rw [if_pos ⟨Or.inl rfl, hne⟩]
  rw [if_pos (Or.inl (show (43 :: d).head? = some 43 from rfl))]

theorem normKey_digits11 (d : PyStr) (hd : ∀ c ∈ d, isDig c = true)
    (h11 : d.length = 11)
    (hnm : ¬(d.get? 2 = some 57 ∧ 11 ≤ firstTwoVal d ∧ firstTwoVal d ≤ 99)) :
    normalizePixKey d = d := by
  have hne : d ≠ [] := by
    intro h
    rw [h] at h11
    simp at h11
  have hsp : ∀ c ∈ d, isSp c = false := fun c hc => isDig_not_sp c (hd c hc)
  have hstrip : pyStrip d = d := pyStrip_eq_self_of_all d hsp
  have h64 : 64 ∉ d := by
    intro hm
    have := hd 64 hm
    simp [isDig] at this
  have huuid : uuidMatch d = false := uuidMatch_of_length_ne d (by omega)
  have hfd : d.filter isDig = d := List.filter_eq_self.2 hd
  have hfhex : d.filter isHexC = d :=
    List.filter_eq_self.2 (fun c hc => isDig_isHexC c (hd c hc))
  unfold normalizePixKey
  rw [if_neg hne]
  dsimp only
  rw [hstrip]
  rw [if_neg h64]
  rw [if_neg (by simp [huuid])]
  rw [if_neg (by rw [hfhex]; rintro ⟨hl, _, _⟩; omega)]
  rw [hfd]
  rw [if_neg (by
    rintro ⟨hc, _⟩
    rw [cpfMatch_digits d hd] at hc
    exact Bool.noConfusion hc)]
  rw [if_neg (by
    rintro ⟨hc, _⟩
    rw [cnpjMatch_digits11 d hd h11] at hc
    exact Bool.noConfusion hc)]
  rw [if_neg (by
    rintro ⟨hph, _⟩
    rcases hph with hp | hp | ⟨_, h12⟩ | hbr
    · have := hd 43 (mem_of_head? d 43 hp)
      simp [isDig] at this
    · rcases hp with hp | hp
      · have := hd 40 hp
        simp [isDig] at this
      · have := hd 41 hp
        simp [isDig] at this
    · omega
    · rcases hbr with ⟨_, hsh⟩ | ⟨h10, _⟩
      · exact hnm hsh
      · omega)]
  rw [if_neg (by omega)]
  rw [if_pos h11]

theorem normKey_digits14 (d : PyStr) (hd : ∀ c ∈ d, isDig c = true)
    (h14 : d.length = 14) :
    normalizePixKey d = d := by
  have hne : d ≠ [] := by
    intro h
    rw [h] at h14
    simp at h14
  have hsp : ∀ c ∈ d, isSp c = false := fun c hc => isDig_not_sp c (hd c hc)
  have hstrip : pyStrip d = d := pyStrip_eq_self_of_all d hsp
  have h64 : 64 ∉ d := by
    intro hm
    have := hd 64 hm
    simp [isDig] at this
  have huuid : uuidMatch d = false := uuidMatch_of_length_ne d (by omega)
  have hfd : d.filter isDig = d := List.filter_eq_self.2 hd
  have hfhex : d.filter isHexC = d :=
    List.filter_eq_self.2 (fun c hc => isDig_isHexC c (hd c hc))
  unfold normalizePixKey
  rw [if_neg hne]
  dsimp only
  rw [hstrip]
  rw [if_neg h64]
  rw [if_neg (by simp [huuid])]
  rw [if_neg (by rw [hfhex]; rintro ⟨hl, _, _⟩; omega)]
  rw [hfd]
  rw [if_neg (by
    rintro ⟨hc, _⟩
    rw [cpfMatch_digits d hd] at hc
    exact Bool.noConfusion hc)]
  rw [if_pos ⟨cnpjMatch_digits14 d hd h14, h14⟩]

theorem uuid_out_stable (o : PyStr) (hu : uuidMatch o = true)
    (hlow : o.map toLowerN = o) : normalizePixKey o = o := by
  have hch : ∀ c ∈ o, isHexC c = true ∨ c = 45 := uuid_chars o hu
  have hsp : ∀ c ∈ o, isSp c = false := by
    intro c hc
    rcases hch c hc with h | h
    · exact isHexC_not_sp c h
    · rw [h]; decide
  have hlen : o.length = 36 := by
    unfold uuidMatch at hu
    simp only [Bool.and_eq_true, decide_eq_true_eq] at hu
    exact hu.1.1.1.1.1.1.1.1.1
  have hne : o ≠ [] := by
    intro h
    rw [h] at hlen
    simp at hlen
  have h64 : 64 ∉ o := by
    intro hm
    rcases hch 64 hm with h | h
    · simp [isHexC] at h
    · omega
  have hstrip : pyStrip o = o := pyStrip_eq_self_of_all o hsp
  unfold normalizePixKey
  rw [if_neg hne]
  dsimp only
  rw [hstrip]
  rw [if_neg h64]
  rw [if_pos hu]
  exact hlow

theorem email_out_stable (k : PyStr) (h64 : 64 ∈ k) (hstr : pyStrip k = k) :
    normalizePixKey (k.map toLowerN) = k.map toLowerN := by
  have hne : k.map toLowerN ≠ [] := by
    intro hcontra
    cases k with
    | nil => simp at h64
    | cons a t => simp at hcontra
  have h64o : 64 ∈ k.map toLowerN := List.mem_map.2 ⟨64, h64, by decide⟩
  have hstrip : pyStrip (k.map toLowerN) = k.map toLowerN := by
    rw [pyStrip_map_toLowerN, hstr]
  unfold normalizePixKey
  rw [if_neg hne]
  dsimp only
  rw [hstrip]
  rw [if_pos h64o]
  exact map_toLowerN_idem k

theorem normKey_idem (key : PyStr)
    (h : ¬(cpfMatch (pyStrip key) = true ∧
        ((pyStrip key).filter isDig).get? 2 = some 57 ∧
        11 ≤ firstTwoVal ((pyStrip key).filter isDig) ∧
        firstTwoVal ((pyStrip key).filter isDig) ≤ 99)) :
    normalizePixKey (normalizePixKey key) = normalizePixKey key := by
  by_cases hne : key = []
  · subst hne
    decide
  by_cases h64 : 64 ∈ pyStrip key
  · have ho : normalizePixKey key = (pyStrip key).map toLowerN := by
      unfold normalizePixKey
      rw [if_neg hne]
      dsimp only
      rw [if_pos h64]
    rw [ho]
    exact email_out_stable (pyStrip key) h64 (pyStrip_idem key)
  by_cases huu : uuidMatch (pyStrip key) = true
  · have ho : normalizePixKey key = (pyStrip key).map toLowerN := by
      unfold normalizePixKey
      rw [if_neg hne]
      dsimp only
      rw [if_neg h64, if_pos huu]
    rw [ho]
    exact uuid_out_stable _ (uuidMatch_map_toLowerN _ huu) (map_toLowerN_idem _)
  by_cases hhex : ((pyStrip key).filter isHexC).length = 32 ∧ pyStrip key ≠ [] ∧
      (pyStrip key).all isHexC = true
  · have ho : normalizePixKey key =
        (insertHyphens ((pyStrip key).filter isHexC)).map toLowerN := by
      unfold normalizePixKey
      rw [if_neg hne]
      dsimp only
      rw [if_neg h64, if_neg huu, if_pos hhex]
    rw [ho]
    have hallf : ((pyStrip key).filter isHexC).all isHexC = true :=
      List.all_eq_true.2 (fun c hc => (List.mem_filter.1 hc).2)
    exact uuid_out_stable _
      (uuidMatch_map_toLowerN _ (uuidMatch_insertHyphens _ hhex.1 hallf))
      (map_toLowerN_idem _)
  by_cases hcpf : cpfMatch (pyStrip key) = true ∧
      ((pyStrip key).filter isDig).length = 11
  · have ho : normalizePixKey key = (pyStrip key).filter isDig := by
      unfold normalizePixKey
      rw [if_neg hne]
      dsimp only
      rw [if_neg h64, if_neg huu, if_neg hhex, if_pos hcpf]
    rw [ho]
    exact normKey_digits11 _ (fun c hc => (List.mem_filter.1 hc).2) hcpf.2
      (fun hm => h ⟨hcpf.1, hm⟩)
  by_cases hcnpj : cnpjMatch (pyStrip key) = true ∧
      ((pyStrip key).filter isDig).length = 14
  · have ho : normalizePixKey key = (pyStrip key).filter isDig := by
      unfold normalizePixKey
      rw [if_neg hne]
      dsimp only
      rw [if_neg h64, if_neg huu, if_neg hhex, if_neg hcpf, if_pos hcnpj]
    rw [ho]
    exact normKey_digits14 _ (fun c hc => (List.mem_filter.1 hc).2) hcnpj.2
  by_cases hph : ((pyStrip key).head? = some 43 ∨ (40 ∈ pyStrip key ∨ 41 ∈ pyStrip key) ∨
      (((pyStrip key).filter isDig).take 2 = [53, 53] ∧
        12 ≤ ((pyStrip key).filter isDig).length) ∨
      ((((pyStrip key).filter isDig).length = 11 ∧
          ((pyStrip key).filter isDig).get? 2 = some 57 ∧
          11 ≤ firstTwoVal ((pyStrip key).filter isDig) ∧
          firstTwoVal ((pyStrip key).filter isDig) ≤ 99) ∨
        (((pyStrip key).filter isDig).length = 10 ∧
          11 ≤ firstTwoVal ((pyStrip key).filter isDig) ∧
          firstTwoVal ((pyStrip key).filter isDig) ≤ 99))) ∧
      (pyStrip key).filter isDig ≠ []
  · by_cases hdir : (pyStrip key).head? = some 43 ∨
        (((pyStrip key).filter isDig).take 2 = [53, 53] ∧
          12 ≤ ((pyStrip key).filter isDig).length)
    · have ho : normalizePixKey key = 43 :: (pyStrip key).filter isDig := by
        unfold normalizePixKey
        rw [if_neg hne]
        dsimp only
        rw [if_neg h64, if_neg huu, if_neg hhex, if_neg hcpf, if_neg hcnpj,
          if_pos hph, if_pos hdir]
      rw [ho]
      exact normKey_plus _ (fun c hc => (List.mem_filter.1 hc).2) hph.2
    · have ho : normalizePixKey key = 43 :: 53 :: 53 :: (pyStrip key).filter isDig := by
        unfold normalizePixKey
        rw [if_neg hne]
        dsimp only
        rw [if_neg h64, if_neg huu, if_neg hhex, if_neg hcpf, if_neg hcnpj,
          if_pos hph, if_neg hdir]
        by_cases h11 : ((pyStrip key).filter isDig).length = 11
        · rw [if_pos h11]
        · rw [if_neg h11]
          by_cases h10 : ((pyStrip key).filter isDig).length = 10
          · rw [if_pos h10]
          · rw [if_neg h10]
      rw [ho]
      have hall : ∀ c ∈ 53 :: 53 :: (pyStrip key).filter isDig, isDig c = true := by
        intro c hc
        rcases List.mem_cons.1 hc with hc1 | hc2
        · subst hc1; decide
        · rcases List.mem_cons.1 hc2 with hc1 | hc3
          · subst hc1; decide
          · exact (List.mem_filter.1 hc3).2
      exact normKey_plus _ hall (by simp)
  by_cases h14 : ((pyStrip key).filter isDig).length = 14
  · have ho : normalizePixKey key = (pyStrip key).filter isDig := by
      unfold normalizePixKey
      rw [if_neg hne]
      dsimp only
      rw [if_neg h64, if_neg huu, if_neg hhex, if_neg hcpf, if_neg hcnpj,
        if_neg hph, if_pos h14]
    rw [ho]
    exact normKey_digits14 _ (fun c hc => (List.mem_filter.1 hc).2) h14
  by_cases h11 : ((pyStrip key).filter isDig).length = 11
  · have ho : normalizePixKey key = (pyStrip key).filter isDig := by
      unfold normalizePixKey
      rw [if_neg hne]
      dsimp only
      rw [if_neg h64, if_neg huu, if_neg hhex, if_neg hcpf, if_neg hcnpj,
        if_neg hph, if_neg h14, if_pos h11]
    rw [ho]
    apply normKey_digits11 _ (fun c hc => (List.mem_filter.1 hc).2) h11
    intro hm
    apply hph
    refine ⟨Or.inr (Or.inr (Or.inr (Or.inl ⟨h11, hm.1, hm.2.1, hm.2.2⟩))), ?_⟩
    intro hD
    rw [hD] at h11
    simp at h11
  · have ho : normalizePixKey key = pyStrip key := by
      unfold normalizePixKey
      rw [if_neg hne]
      dsimp only
      rw [if_neg h64, if_neg huu, if_neg hhex, if_neg hcpf, if_neg hcnpj,
        if_neg hph, if_neg h14, if_neg h11]
    rw [ho]
    by_cases hke : pyStrip key = []
    · rw [hke]
      decide
    · have hstr2 : pyStrip (pyStrip key) = pyStrip key := pyStrip_idem key
      unfold normalizePixKey
      rw [if_neg hke]
      dsimp only
      rw [hstr2]
      rw [if_neg h64, if_neg huu, if_neg hhex, if_neg hcpf, if_neg hcnpj,
        if_neg hph, if_neg h14, if_neg h11]

/-! ### Text-normalizer idempotence: character and shape lemmas -/

theorem toUpperN_idem (c : Nat) : toUpperN (toUpperN c) = toUpperN c := by
  unfold toUpperN
  split
  · rename_i h
    rw [if_neg (by omega)]
  · rfl

theorem toUpperN_eq_32 (c : Nat) : toUpperN c = 32 ↔ c = 32 := by
  unfold toUpperN
  split <;> omega

theorem isSp_toUpperN (c : Nat) : isSp (toUpperN c) = isSp c := by
  unfold toUpperN
  split
  · rename_i h
    have h1 : isSp (c - 32) = false := by
      simp only [isSp, decide_eq_false_iff_not]
      omega
    have h2 : isSp c = false := by
      simp only [isSp, decide_eq_false_iff_not]
      omega
    rw [h1, h2]
  · rfl

theorem isAlnumSp_toUpperN (c : Nat) (h : isAlnumSp c = true) :
    isAlnumSp (toUpperN c) = true := by
  simp only [isAlnumSp, decide_eq_true_eq] at h ⊢
  unfold toUpperN
  split <;> omega

theorem isAlnumSp_lt (c : Nat) (h : isAlnumSp c = true) : c < 192 := by
  simp only [isAlnumSp, decide_eq_true_eq] at h
  omega

theorem isAlnumSp_isSp (c : Nat) (h1 : isAlnumSp c = true) (h2 : isSp c = true) :
    c = 32 := by
  simp only [isAlnumSp, decide_eq_true_eq] at h1
  simp only [isSp, decide_eq_true_eq] at h2
  omega

theorem nfdChar_small (c : Nat) (h : c < 192) : nfdChar c = [c] := by
  unfold nfdChar
  have hf : latinDecomp.find? (fun t => t.1 == c) = none := by
    rw [List.find?_eq_none]
    intro t ht
    have h192 : ∀ u ∈ latinDecomp, 192 ≤ u.1 := by decide
    have := h192 t ht
    simp only [beq_iff_eq]
    omega
  rw [hf]

theorem flatMap_nfdChar_id (l : PyStr) (h : ∀ c ∈ l, c < 192) :
    l.flatMap nfdChar = l := by
  induction l with
  | nil => rfl
  | cons a t ih =>
    rw [List.flatMap_cons]
    rw [nfdChar_small a (h a (by simp))]
    rw [ih (fun c hc => h c (List.mem_cons_of_mem a hc))]
    rfl

theorem removeAccents_id (l : PyStr) (h : ∀ c ∈ l, c < 192) :
    removeAccents l = l := by
  unfold removeAccents
  rw [flatMap_nfdChar_id l h]
  apply List.filter_eq_self.2
  intro c hc
  have := h c hc
  simp only [isMn, Bool.not_eq_true', decide_eq_false_iff_not]
  omega

theorem okSp_tail (a : Nat) (t : PyStr) (h : okSp (a :: t) = true) :
    okSp t = true := by
  cases t with
  | nil => rfl
  | cons b t' =>
    simp only [okSp, Bool.and_eq_true] at h
    exact h.2

theorem okSp_no32 : ∀ (l : PyStr), (∀ c ∈ l, c ≠ 32) → okSp l = true := by
  intro l
  induction l with
  | nil => intro _; rfl
  | cons a t ih =>
    intro h
    cases t with
    | nil => rfl
    | cons b t' =>
      have ha : a ≠ 32 := h a (by simp)
      have ht : ∀ c ∈ b :: t', c ≠ 32 := fun c hc => h c (List.mem_cons_of_mem a hc)
      simp only [okSp, Bool.and_eq_true]
      refine ⟨?_, ih ht⟩
      simp [ha]

theorem okSp_cons32 (l : PyStr) (h : okSp l = true) (hh : l.head? ≠ some 32) :
    okSp (32 :: l) = true := by
  cases l with
  | nil => rfl
  | cons b t =>
    have hb : b ≠ 32 := by
      intro hcontra
      subst hcontra
      exact hh rfl
    simp only [okSp, Bool.and_eq_true]
    refine ⟨?_, h⟩
    simp [hb]

theorem okSp_append_right : ∀ (A B : PyStr), okSp (A ++ B) = true → okSp B = true := by
  intro A
  induction A with
  | nil => intro B h; simpa using h
  | cons a A' ih =>
    intro B h
    exact ih B (okSp_tail a (A' ++ B) (by simpa using h))

theorem mem_of_getLast? : ∀ (l : PyStr) (c : Nat), l.getLast? = some c → c ∈ l := by
  intro l
  induction l with
  | nil => intro c h; simp at h
  | cons a t ih =>
    intro c h
    cases t with
    | nil =>
      simp only [List.getLast?_singleton] at h
      injection h with h
      subst h
      simp
    | cons b t' =>
      rw [List.getLast?_cons_cons] at h
      exact List.mem_cons_of_mem a (ih c h)

theorem getLast?_append_right : ∀ (A B : PyStr), B ≠ [] →
    (A ++ B).getLast? = B.getLast? := by
  intro A
  induction A with
  | nil => intro B _; rfl
  | cons a A' ih =>
    intro B hB
    have h1 : A' ++ B ≠ [] := by
      intro hcontra
      exact hB (List.append_eq_nil.1 hcontra).2
    cases hA : A' ++ B with
    | nil => exact absurd hA h1
    | cons x xs =>
      show (a :: (A' ++ B)).getLast? = B.getLast?
      rw [hA, List.getLast?_cons_cons, ← hA, ih B hB]

theorem okSp_append : ∀ (A B : PyStr), okSp A = true → okSp B = true →
    (∀ a b, A.getLast? = some a → B.head? = some b → ¬(a = 32 ∧ b = 32)) →
    okSp (A ++ B) = true := by
  intro A
  induction A with
  | nil => intro B _ hB _; simpa using hB
  | cons a A' ih =>
    intro B hA hB hAB
    cases A' with
    | nil =>
      cases B with
      | nil => rfl
      | cons b B' =>
        show okSp (a :: b :: B') = true
        simp only [okSp, Bool.and_eq_true]
        refine ⟨?_, hB⟩
        have hne := hAB a b (by simp) rfl
        by_cases ha : a = 32
        · by_cases hb : b = 32
          · exact absurd ⟨ha, hb⟩ hne
          · simp [hb]
        · simp [ha]
    | cons a2 A'' =>
      show okSp (a :: a2 :: (A'' ++ B)) = true
      simp only [okSp, Bool.and_eq_true] at hA
      simp only [okSp, Bool.and_eq_true]
      refine ⟨hA.1, ?_⟩
      have hres : okSp ((a2 :: A'') ++ B) = true := by
        apply ih B hA.2 hB
        intro x y hx hy
        apply hAB x y ?_ hy
        rw [List.getLast?_cons_cons]
        exact hx
      exact hres

theorem okSp_take : ∀ (l : PyStr) (n : Nat), okSp l = true → okSp (l.take n) = true := by
  intro l
  induction l with
  | nil =>
    intro n _
    rw [List.take_nil]
    rfl
  | cons a t ih =>
    intro n h
    cases n with
    | zero => rfl
    | succ m =>
      cases t with
      | nil =>
        rw [List.take_succ_cons, List.take_nil]
        rfl
      | cons b t' =>
        cases m with
        | zero => rfl
        | succ m' =>
          simp only [okSp, Bool.and_eq_true] at h
          rw [List.take_succ_cons, List.take_succ_cons]
          have hrec := ih (m' + 1) h.2
          rw [List.take_succ_cons] at hrec
          simp only [okSp, Bool.and_eq_true]
          exact ⟨h.1, hrec⟩

theorem okSp_map_toUpperN : ∀ (l : PyStr), okSp l = true →
    okSp (l.map toUpperN) = true := by
  intro l
  induction l with
  | nil => intro _; rfl
  | cons a t ih =>
    intro h
    cases t with
    | nil => rfl
    | cons b t' =>
      simp only [okSp, Bool.and_eq_true] at h
      have h2 : okSp ((b :: t').map toUpperN) = true := ih h.2
      simp only [List.map_cons] at h2 ⊢
      simp only [okSp, Bool.and_eq_true]
      refine ⟨?_, h2⟩
      cases hA : (toUpperN a == 32) with
      | false => simp [hA]
      | true =>
        cases hB : (toUpperN b == 32) with
        | false => simp [hA, hB]
        | true =>
          exfalso
          have ha : a = 32 := (toUpperN_eq_32 a).1 (by simpa using hA)
          have hb : b = 32 := (toUpperN_eq_32 b).1 (by simpa using hB)
          subst ha
          subst hb
          simp at h

theorem head?_take (l : PyStr) (n : Nat) (c : Nat) (h : (l.take n).head? = some c) :
    l.head? = some c := by
  cases n with
  | zero =>
    rw [List.take_zero] at h
    simp at h
  | succ m =>
    cases l with
    | nil =>
      rw [List.take_nil] at h
      simp at h
    | cons a t =>
      rw [List.take_succ_cons] at h
      exact h

theorem pySplitAux_nil : ∀ (f : Nat), pySplitAux f [] = [] := by
  intro f
  cases f <;> rfl

theorem pySplitAux_cons32 (f : Nat) (t : PyStr) :
    pySplitAux (f + 1) (32 :: t) = pySplitAux (f + 1) t := by
  simp only [pySplitAux]
  rw [List.dropWhile_cons_of_pos (by decide)]

theorem pySplitAux_words : ∀ (f : Nat) (l w : PyStr), w ∈ pySplitAux f l →
    w ≠ [] ∧ ∀ c ∈ w, isSp c = false ∧ c ∈ l := by
  intro f
  induction f with
  | zero =>
    intro l w hw
    simp [pySplitAux] at hw
  | succ f ih =>
    intro l w hw
    simp only [pySplitAux] at hw
    cases hdw : l.dropWhile isSp with
    | nil =>
      rw [hdw] at hw
      simp at hw
    | cons c cs =>
      rw [hdw] at hw
      rcases List.mem_cons.1 hw with h1 | h2
      · subst h1
        refine ⟨by simp, ?_⟩
        intro x hx
        rcases List.mem_cons.1 hx with hx1 | hx2
        · refine ⟨?_, ?_⟩
          · rw [hx1]
            exact dropWhile_head_not l c (by rw [hdw]; rfl)
          · rw [hx1]
            exact (List.dropWhile_sublist isSp).subset (by rw [hdw]; simp)
        · have hxp : isSp x = false := by
            have h5 := List.mem_takeWhile_imp hx2
            simpa using h5
          refine ⟨hxp, ?_⟩
          have hxcs : x ∈ cs := (List.takeWhile_sublist (fun y => !isSp y)).subset hx2
          exact (List.dropWhile_sublist isSp).subset
            (by rw [hdw]; exact List.mem_cons_of_mem c hxcs)
      · obtain ⟨hne, hch⟩ := ih _ _ h2
        refine ⟨hne, fun x hx => ?_⟩
        obtain ⟨hs, hm⟩ := hch x hx
        refine ⟨hs, ?_⟩
        have hxcs : x ∈ cs := (List.dropWhile_sublist (fun y => !isSp y)).subset hm
        exact (List.dropWhile_sublist isSp).subset
          (by rw [hdw]; exact List.mem_cons_of_mem c hxcs)

theorem joinSp_head (w : PyStr) (ws : List PyStr) (hw : w ≠ []) :
    (joinSp (w :: ws)).head? = w.head? := by
  cases ws with
  | nil => rfl
  | cons x xs =>
    cases w with
    | nil => exact absurd rfl hw
    | cons a t => rfl

theorem joinSp_chars : ∀ (ws : List PyStr) (c : Nat), c ∈ joinSp ws →
    c = 32 ∨ ∃ w ∈ ws, c ∈ w := by
  intro ws
  induction ws with
  | nil =>
    intro c hc
    simp [joinSp] at hc
  | cons w ws' ih =>
    intro c hc
    cases ws' with
    | nil =>
      right
      exact ⟨w, by simp, by simpa [joinSp] using hc⟩
    | cons x xs =>
      have hc2 : c ∈ w ++ 32 :: joinSp (x :: xs) := by simpa [joinSp] using hc
      rcases List.mem_append.1 hc2 with h1 | h2
      · exact Or.inr ⟨w, by simp, h1⟩
      · rcases List.mem_cons.1 h2 with h3 | h4
        · exact Or.inl h3
        · rcases ih c h4 with h5 | ⟨w', hw', hcw'⟩
          · exact Or.inl h5
          · exact Or.inr ⟨w', List.mem_cons_of_mem w hw', hcw'⟩

theorem okSp_joinSp : ∀ (ws : List PyStr),
    (∀ w ∈ ws, w ≠ [] ∧ ∀ c ∈ w, isSp c = false) → okSp (joinSp ws) = true := by
  intro ws
  induction ws with
  | nil => intro _; rfl
  | cons w ws' ih =>
    intro hws
    have hw := hws w (by simp)
    have hw32 : ∀ c ∈ w, c ≠ 32 := by
      intro c hc hc32
      subst hc32
      have := hw.2 32 hc
      simp [isSp] at this
    cases ws' with
    | nil =>
      have hjw : joinSp [w] = w := rfl
      rw [hjw]
      exact okSp_no32 w hw32
    | cons x xs =>
      have hx := hws x (by simp)
      have hrest : okSp (joinSp (x :: xs)) = true :=
        ih (fun w' hw' => hws w' (List.mem_cons_of_mem w hw'))
      have hheadrest : (joinSp (x :: xs)).head? ≠ some 32 := by
        rw [joinSp_head x xs hx.1]
        intro hcontra
        have h32mem : (32 : Nat) ∈ x := mem_of_head? x 32 hcontra
        have := hx.2 32 h32mem
        simp [isSp] at this
      have hB : okSp (32 :: joinSp (x :: xs)) = true := okSp_cons32 _ hrest hheadrest
      have hgoal : okSp (w ++ 32 :: joinSp (x :: xs)) = true := by
        apply okSp_append w _ (okSp_no32 w hw32) hB
        intro a b ha hb
        rintro ⟨ha32, _⟩
        exact hw32 a (mem_of_getLast? w a ha) ha32
      simpa [joinSp] using hgoal

theorem joinSp_pySplitAux : ∀ (f : Nat) (o : PyStr), o.length ≤ f →
    (∀ c ∈ o, isSp c = true → c = 32) →
    (∀ c, o.head? = some c → c ≠ 32) →
    (∀ c, o.getLast? = some c → c ≠ 32) →
    okSp o = true →
    joinSp (pySplitAux f o) = o := by
  intro f
  induction f with
  | zero =>
    intro o hlen _ _ _ _
    have ho : o = [] := by
      cases o with
      | nil => rfl
      | cons a t => simp at hlen
    subst ho
    rfl
  | succ f ih =>
    intro o hlen hsp32 hh hl hok
    cases o with
    | nil => rfl
    | cons c cs =>
      have hcsp : isSp c = false := by
        cases hIs : isSp c with
        | false => rfl
        | true => exact absurd (hsp32 c (List.mem_cons_self c cs) hIs) (hh c rfl)
      simp only [pySplitAux]
      rw [List.dropWhile_cons_of_neg (by simp [hcsp])]
      show joinSp ((c :: cs.takeWhile (fun x => !isSp x)) ::
        pySplitAux f (cs.dropWhile (fun x => !isSp x))) = c :: cs
      have hcs : cs.takeWhile (fun x => !isSp x) ++ cs.dropWhile (fun x => !isSp x) = cs :=
        List.takeWhile_append_dropWhile (fun x => !isSp x) cs
      cases hr : cs.dropWhile (fun x => !isSp x) with
      | nil =>
        rw [pySplitAux_nil]
        rw [hr, List.append_nil] at hcs
        show joinSp [c :: cs.takeWhile (fun x => !isSp x)] = c :: cs
        rw [hcs]
        rfl
      | cons s r' =>
        have hs32 : s = 32 := by
          have h1 : (fun x => !isSp x) s = false := dropWhile_head_not cs s (by rw [hr]; rfl)
          have h2 : isSp s = true := by simpa using h1
          apply hsp32 s ?_ h2
          exact List.mem_cons_of_mem c
            ((List.dropWhile_sublist (fun x => !isSp x)).subset
              (by rw [hr]; exact List.mem_cons_self s r'))
        subst hs32
        cases r' with
        | nil =>
          exfalso
          rw [hr] at hcs
          apply hl 32 ?_ rfl
          show (c :: cs).getLast? = some 32
          rw [← hcs, ← List.cons_append]
          rw [getLast?_append_right _ _ (by simp)]
          rfl
        | cons d r2 =>
          rw [hr] at hcs
          have ho : c :: cs = (c :: cs.takeWhile (fun x => !isSp x)) ++ 32 :: d :: r2 := by
            conv_lhs => rw [← hcs]
            rfl
          have hokB : okSp (32 :: d :: r2) = true :=
            okSp_append_right (c :: cs.takeWhile (fun x => !isSp x)) _
              (by rw [← ho]; exact hok)
          have hd32 : d ≠ 32 := by
            intro hd
            subst hd
            simp [okSp] at hokB
          have hokd : okSp (d :: r2) = true := by
            simp only [okSp, Bool.and_eq_true] at hokB
            exact hokB.2
          have hdmem : d ∈ c :: cs := by
            rw [ho]
            simp
          have hdsp : isSp d = false := by
            cases hIs : isSp d with
            | false => rfl
            | true => exact absurd (hsp32 d hdmem hIs) hd32
          have hlencs : cs.length =
              (cs.takeWhile (fun x => !isSp x)).length + (2 + r2.length) := by
            have hlc := congrArg List.length hcs
            simp at hlc
            omega
          cases f with
          | zero =>
            exfalso
            have h0 : (c :: cs).length = cs.length + 1 := by simp
            omega
          | succ f1 =>
            rw [pySplitAux_cons32]
            have hsplit : pySplitAux (f1 + 1) (d :: r2) =
                (d :: r2.takeWhile (fun x => !isSp x)) ::
                  pySplitAux f1 (r2.dropWhile (fun x => !isSp x)) := by
              simp only [pySplitAux]
              rw [List.dropWhile_cons_of_neg (by simp [hdsp])]
            have hIH : joinSp (pySplitAux (f1 + 1) (d :: r2)) = d :: r2 := by
              apply ih
              · simp at hlen ⊢
                omega
              · intro x hx hxsp
                apply hsp32 x ?_ hxsp
                rw [ho]
                exact List.mem_append_right _ (List.mem_cons_of_mem 32 hx)
              · intro x hx
                have hdx : d = x := by simpa using hx
                rw [← hdx]
                exact hd32
              · intro x hx
                apply hl x
                rw [ho, getLast?_append_right _ _ (by simp), List.getLast?_cons_cons]
                exact hx
              · exact hokd
            rw [hsplit]
            simp only [joinSp]
            rw [← hsplit, hIH]
            exact ho.symm

theorem normText_chars (s : PyStr) (n : Nat) :
    ∀ c ∈ normalizeText s n, isAlnumSp c = true := by
  unfold normalizeText
  by_cases hs : s = []
  · rw [if_pos hs]
    simp
  · rw [if_neg hs]
    intro c hc
    have hc2 : c ∈ (joinSp (pySplit ((removeAccents s).filter isAlnumSp))).map toUpperN :=
      List.mem_of_mem_take hc
    obtain ⟨x, hx, hxc⟩ := List.mem_map.1 hc2
    subst hxc
    rcases joinSp_chars _ x hx with h32 | ⟨w, hw, hcw⟩
    · subst h32
      decide
    · have hxm : x ∈ (removeAccents s).filter isAlnumSp :=
        ((pySplitAux_words _ _ w hw).2 x hcw).2
      exact isAlnumSp_toUpperN x (List.mem_filter.1 hxm).2

theorem normText_head (s : PyStr) (n : Nat) (c : Nat)
    (h : (normalizeText s n).head? = some c) : c ≠ 32 := by
  unfold normalizeText at h
  by_cases hs : s = []
  · rw [if_pos hs] at h
    simp at h
  · rw [if_neg hs] at h
    have h1 : ((joinSp (pySplit ((removeAccents s).filter isAlnumSp))).map toUpperN).head? =
        some c := head?_take _ _ _ h
    rw [List.head?_map] at h1
    cases hj : (joinSp (pySplit ((removeAccents s).filter isAlnumSp))).head? with
    | none =>
      rw [hj] at h1
      simp at h1
    | some x =>
      rw [hj] at h1
      simp at h1
      cases hps : pySplit ((removeAccents s).filter isAlnumSp) with
      | nil =>
        rw [hps] at hj
        simp [joinSp] at hj
      | cons w ws =>
        rw [hps] at hj
        have hwmem : w ∈ pySplit ((removeAccents s).filter isAlnumSp) := by
          rw [hps]
          exact List.mem_cons_self w ws
        have hwfacts := pySplitAux_words ((removeAccents s).filter isAlnumSp).length
          ((removeAccents s).filter isAlnumSp) w hwmem
        rw [joinSp_head w ws hwfacts.1] at hj
        have hxw : x ∈ w := mem_of_head? w x hj
        have hxsp : isSp x = false := (hwfacts.2 x hxw).1
        intro hc32
        rw [hc32] at h1
        have hx32 : x = 32 := (toUpperN_eq_32 x).1 h1
        rw [hx32] at hxsp
        simp [isSp] at hxsp

theorem normText_okSp (s : PyStr) (n : Nat) : okSp (normalizeText s n) = true := by
  unfold normalizeText
  by_cases hs : s = []
  · rw [if_pos hs]
    rfl
  · rw [if_neg hs]
    apply okSp_take
    apply okSp_map_toUpperN
    apply okSp_joinSp
    intro w hw
    have hwfacts := pySplitAux_words _ _ w hw
    exact ⟨hwfacts.1, fun c hc => (hwfacts.2 c hc).1⟩

theorem normText_second (o : PyStr) (n : Nat) (hne : o ≠ [])
    (hra : removeAccents o = o) (hfil : o.filter isAlnumSp = o)
    (hjs : joinSp (pySplit o) = o) (hmap : o.map toUpperN = o)
    (htake : o.take n = o) :
    normalizeText o n = o := by
  unfold normalizeText
  rw [if_neg hne, hra, hfil, hjs, hmap, htake]

theorem normText_idem (s : PyStr) (n : Nat)
    (h : (normalizeText s n).getLast? ≠ some 32) :
    normalizeText (normalizeText s n) n = normalizeText s n := by
  by_cases ho : normalizeText s n = []
  · rw [ho]
    rfl
  have hs : s ≠ [] := by
    intro hs0
    apply ho
    rw [hs0]
    rfl
  have hch : ∀ c ∈ normalizeText s n, isAlnumSp c = true := normText_chars s n
  apply normText_second _ _ ho
  · exact removeAccents_id _ (fun c hc => isAlnumSp_lt c (hch c hc))
  · exact List.filter_eq_self.2 hch
  · show joinSp (pySplitAux (normalizeText s n).length (normalizeText s n)) =
      normalizeText s n
    apply joinSp_pySplitAux _ _ (le_refl _)
    · exact fun c hc hsp => isAlnumSp_isSp c (hch c hc) hsp
    · exact fun c hc => normText_head s n c hc
    · intro c hc hc32
      rw [hc32] at hc
      exact h hc
    · exact normText_okSp s n
  · unfold normalizeText
    rw [if_neg hs]
    rw [List.map_take, List.map_map]
    congr 1
    exact List.map_congr_left fun c _ => toUpperN_idem c
  · unfold normalizeText
    rw [if_neg hs]
    rw [List.take_take, Nat.min_self]

/-- C9 (amended).  Both normalizers are idempotent on their own output
except in two cases the original claim misses: the key normalizer is
idempotent for every key whose stripped form is not a formatted CPF whose
digits also have the Brazilian mobile shape (digit `9` at index 2, first
two digits between 11 and 99) — such keys normalize to 11 bare digits that
a second pass reclassifies as a phone; and the text normalizer is
idempotent whenever its output does not end in a space — truncation to
`maxLength` can leave a trailing space that a second pass strips. -/
theorem normalizer_idem (key s : PyStr) (n : Nat)
    (hkey : ¬(cpfMatch (pyStrip key) = true ∧
        ((pyStrip key).filter isDig).get? 2 = some 57 ∧
        11 ≤ firstTwoVal ((pyStrip key).filter isDig) ∧
        firstTwoVal ((pyStrip key).filter isDig) ≤ 99))
    (htext : (normalizeText s n).getLast? ≠ some 32) :
    normalizePixKey (normalizePixKey key) = normalizePixKey key ∧
    normalizeText (normalizeText s n) n = normalizeText s n :=
  ⟨normKey_idem key hkey, normText_idem s n htext⟩

/-- Counterexample to C9 as stated: the key `"119.876.543-21"` normalizes
to `"11987654321"` but a second pass yields `"+5511987654321"`, and the
text `"ab cd"` with max length 3 normalizes to `"AB "` but a second pass
yields `"AB"`. -/
theorem normalizer_idem_ce :
    normalizePixKey (normalizePixKey (pyStr ("119.876.543-21"))) ≠
      normalizePixKey (pyStr ("119.876.543-21")) ∧
    normalizeText (normalizeText (pyStr ("ab cd")) 3) 3 ≠
      normalizeText (pyStr ("ab cd")) 3 := by
  decide

/-- Witness for C9 (amended) on an e-mail key and a plain name. -/
theorem normalizer_idem_witness :
    ¬(cpfMatch (pyStrip (pyStr ("Foo@Bar.com"))) = true ∧
        ((pyStrip (pyStr ("Foo@Bar.com"))).filter isDig).get? 2 = some 57 ∧
        11 ≤ firstTwoVal ((pyStrip (pyStr ("Foo@Bar.com"))).filter isDig) ∧
        firstTwoVal ((pyStrip (pyStr ("Foo@Bar.com"))).filter isDig) ≤ 99) ∧
    (normalizeText (pyStr ("hello")) 25).getLast? ≠ some 32 ∧
    normalizePixKey (normalizePixKey (pyStr ("Foo@Bar.com"))) =
      normalizePixKey (pyStr ("Foo@Bar.com")) ∧
    normalizeText (normalizeText (pyStr ("hello")) 25) 25 =
      normalizeText (pyStr ("hello")) 25 :=
  ⟨by decide, by decide,
   (normalizer_idem (pyStr ("Foo@Bar.com")) (pyStr ("hello")) 25
     (by decide) (by decide)).1,
   (normalizer_idem (pyStr ("Foo@Bar.com")) (pyStr ("hello")) 25
     (by decide) (by decide)).2⟩
